import Mathlib

/-!
# NutriPlan data structures

A model of the five C programs of the repository and proofs about them:

* `NutriPlan.Tree`   : tree.c, the calorie search tree;
* `NutriPlan.Recipe` : linked_list.c, the recipe step list;
* `NutriPlan.PQ`     : priority_queue.c, the meal max-heap;
* `NutriPlan.Graph`  : graph.c, the substitution graph and its breadth-first search;
* `NutriPlan.Stack`  : stack.c, the cheat meal stack.

Pointers to heap nodes become inductive values, C arrays become functions from the slot
index, and every function that prints returns what it prints. A character array is the
string it holds; strings passed in are taken to fit their arrays. An `int` is an integer;
where a sum of values supplied by the caller can leave the 32-bit range, the reduction to
32 bits is written out (`toInt32`). The definitions come first, the theorems after them.
-/

set_option autoImplicit false

/-! ## Definitions -/

namespace NutriPlan

end NutriPlan

namespace NutriPlan
namespace Tree

/-- Data fields of a `FoodNode` of tree.c (everything but the two child pointers).
The three `float` fields are only stored and printed, never computed with; they are
kept as exact rationals. -/
structure FoodData where
  name : String
  hindiName : String
  calories : Int
  protein : ℚ
  carbs : ℚ
  fats : ℚ
  cost : Int
  dietType : String
deriving DecidableEq

/-- A `FoodNode *`: `null` is the NULL pointer, `node` an allocated node with its
`left` and `right` children. -/
inductive FoodNode where
  | null : FoodNode
  | node (data : FoodData) (left : FoodNode) (right : FoodNode) : FoodNode
deriving DecidableEq

/-- `createNode`: fresh node, both children NULL. -/
def createNode (name hindiName : String) (calories : Int) (protein carbs fats : ℚ)
    (cost : Int) (dietType : String) : FoodNode :=
  .node ⟨name, hindiName, calories, protein, carbs, fats, cost, dietType⟩ .null .null

/-- `insertFood`: descend left when `calories < root->calories`, right otherwise. -/
def insertFood : FoodNode → String → String → Int → ℚ → ℚ → ℚ → Int → String → FoodNode
  | .null, name, hindiName, calories, protein, carbs, fats, cost, dietType =>
      createNode name hindiName calories protein carbs fats cost dietType
  | .node d l r, name, hindiName, calories, protein, carbs, fats, cost, dietType =>
      if calories < d.calories then
        .node d (insertFood l name hindiName calories protein carbs fats cost dietType) r
      else
        .node d l (insertFood r name hindiName calories protein carbs fats cost dietType)

/-- One `insertFood` call whose eight arguments are the fields of `d`. -/
def insertDish (root : FoodNode) (d : FoodData) : FoodNode :=
  insertFood root d.name d.hindiName d.calories d.protein d.carbs d.fats d.cost d.dietType

/-- The tree after a sequence of `root = insertFood(root, ...)` calls starting from
`root = NULL`, as in `main`. -/
def insertAll (ds : List FoodData) : FoodNode :=
  ds.foldl insertDish .null

/-- `searchInRange`: the rows printed, in print order. -/
def searchInRange : FoodNode → Int → Int → String → List FoodData
  | .null, _, _, _ => []
  | .node d l r, minCal, maxCal, dietType =>
      (if minCal < d.calories then searchInRange l minCal maxCal dietType else []) ++
      (if d.calories ≥ minCal ∧ d.calories ≤ maxCal then
          (if dietType = "all" ∨ d.dietType = dietType then [d] else [])
        else []) ++
      (if maxCal > d.calories then searchInRange r minCal maxCal dietType else [])

/-- `inorderTraversal`: the nodes visited (each is printed as name and calories),
in visiting order. -/
def inorderTraversal : FoodNode → List FoodData
  | .null => []
  | .node d l r => inorderTraversal l ++ [d] ++ inorderTraversal r

/-- The filter of `range_scan` in the words of the specification: calories within the
inclusive range and diet type equal to the filter unless the filter is "all". -/
def specRangeFilter (minCal maxCal : Int) (dietType : String) (d : FoodData) : Bool :=
  decide (minCal ≤ d.calories ∧ d.calories ≤ maxCal ∧ (dietType = "all" ∨ d.dietType = dietType))

/-- Search-tree ordering used by `insertFood`: everything on the left is strictly
smaller, everything on the right is at least the node. -/
def Ordered : FoodNode → Prop
  | .null => True
  | .node d l r =>
      (∀ x ∈ inorderTraversal l, x.calories < d.calories) ∧
      (∀ x ∈ inorderTraversal r, d.calories ≤ x.calories) ∧ Ordered l ∧ Ordered r

/-- Two of the 320-kcal dishes that `main` inserts, in the order of insertion. -/
def dalTadka : FoodData := ⟨"Dal Tadka", "दाल तड़का", 320, 14, 48, 8, 30, "veg"⟩
def paneerParatha : FoodData := ⟨"Paneer Paratha", "पनीर पराठा", 320, 15, 40, 12, 50, "veg"⟩

/-- Outcome of a call that returns a node pointer: the node returned (given by its
data), or a read through a NULL pointer, where the run leaves defined behaviour. -/
inductive NodeResult where
  | found (data : FoodData) : NodeResult
  | nullDereference : NodeResult
deriving DecidableEq

/-- `findMin`: the loop `while (root->left != NULL) root = root->left;` and the node it
returns. The loop test reads `root->left` before anything else, so a NULL `root` is
read through. -/
def findMin : FoodNode → NodeResult
  | .null => .nullDereference
  | .node d .null _ => .found d
  | .node _ (.node d1 l1 r1) _ => findMin (.node d1 l1 r1)

/-- `findMax`: the loop `while (root->right != NULL) root = root->right;` and the node it
returns; a NULL `root` is read through. -/
def findMax : FoodNode → NodeResult
  | .null => .nullDereference
  | .node d _ .null => .found d
  | .node _ _ (.node d1 l1 r1) => findMax (.node d1 l1 r1)

/-- `countNodes`. -/
def countNodes : FoodNode → Int
  | .null => 0
  | .node _ l r => 1 + countNodes l + countNodes r

/-- The nodes of a tree, each given as the subtree it roots. -/
def nodes : FoodNode → List FoodNode
  | .null => []
  | .node d l r => .node d l r :: (nodes l ++ nodes r)

/-- The fourteen dishes that `main` inserts, in the order of insertion. -/
def mainFoods : List FoodData :=
  [⟨"Moong Dal Cheela", "मूंग दाल चीला", 180, 12, 25, 4, 20, "veg"⟩,
   ⟨"Oats Upma", "ओट्स उपमा", 210, 8, 32, 6, 25, "veg"⟩,
   ⟨"Egg Bhurji", "अंडा भुर्जी", 220, 18, 8, 14, 30, "egg"⟩,
   ⟨"Boiled Eggs", "उबले अंडे", 240, 16, 22, 11, 25, "egg"⟩,
   ⟨"Poha", "पोहा", 250, 6, 40, 7, 15, "veg"⟩,
   ⟨"Paneer Bhurji", "पनीर भुर्जी", 265, 18.5, 8, 14, 65, "veg"⟩,
   ⟨"Idli Sambar", "इडली सांभर", 280, 10, 48, 6, 40, "veg"⟩,
   dalTadka,
   ⟨"Fish Curry", "मछली करी", 320, 28, 22, 14, 90, "non-veg"⟩,
   paneerParatha,
   ⟨"Rajma Chawal", "राजमा चावल", 380, 16, 58, 9, 35, "veg"⟩,
   ⟨"Chicken Curry", "चिकन करी", 380, 32, 35, 12, 80, "non-veg"⟩,
   ⟨"Egg Curry", "अंडा करी", 350, 20, 48, 10, 45, "egg"⟩,
   ⟨"Chole", "छोले", 420, 18, 65, 10, 45, "veg"⟩]

/-- The first seven dishes of `main`; their calories are pairwise distinct. -/
def distinctFoods : List FoodData :=
  mainFoods.take 7

/-- Order of two dishes by calories alone, the key of the tree. -/
def caloriesLE (a b : FoodData) : Prop :=
  a.calories ≤ b.calories

instance caloriesLE_decidable : DecidableRel caloriesLE :=
  fun a b => inferInstanceAs (Decidable (a.calories ≤ b.calories))

instance caloriesLE_total : IsTotal FoodData caloriesLE :=
  ⟨fun a b => le_total a.calories b.calories⟩

instance caloriesLE_trans : IsTrans FoodData caloriesLE :=
  ⟨fun _ _ _ h1 h2 => le_trans h1 h2⟩

end Tree
end NutriPlan

namespace NutriPlan
namespace Recipe

/-- Data fields of a `StepNode` of linked_list.c (everything but `next`). -/
structure StepNode where
  stepNumber : Int
  instruction : String
  timeEstimate : String
deriving DecidableEq

/-- A recipe is the chain of nodes reached from `head` through `next`; `[]` is NULL. -/
abbrev RecipeList := List StepNode

/-- What a `deleteStep` call reports: the instruction of the node it freed, or one of
its two error messages. -/
inductive DeleteOutcome where
  | deleted (instruction : String) : DeleteOutcome
  | empty : DeleteOutcome
  | positionOutOfRange : DeleteOutcome
deriving DecidableEq

/-- Loop of `reverseRecipe`: `prev` is the already reversed part, `current` the rest. -/
def reverseLoop : RecipeList → RecipeList → RecipeList
  | prev, [] => prev
  | prev, s :: next => reverseLoop (s :: prev) next

/-- `reverseRecipe`: the new `*head`. -/
def reverseRecipe (head : RecipeList) : RecipeList :=
  reverseLoop [] head

/-- The `for` loop of `deleteStep`, `for (i; temp != NULL && i < position - 1; i++)`:
`before` holds the nodes already passed (nearest first), `temp` the chain from the
current node on. Returns both at loop exit. -/
def findPrev : RecipeList → RecipeList → Int → Int → RecipeList × RecipeList
  | before, [], _, _ => (before, [])
  | before, t :: rest, i, position =>
      if i < position - 1 then findPrev (t :: before) rest (i + 1) position
      else (before, t :: rest)

/-- `deleteStep`: the new `*head` and what was reported. -/
def deleteStep (head : RecipeList) (position : Int) : RecipeList × DeleteOutcome :=
  match head with
  | [] => ([], .empty)
  | h :: rest =>
      if position = 0 then (rest, .deleted h.instruction)
      else
        match findPrev [] (h :: rest) 0 position with
        | (_, []) => (h :: rest, .positionOutOfRange)
        | (_, [_]) => (h :: rest, .positionOutOfRange)
        | (before, t :: toDelete :: after) =>
            (before.reverse ++ t :: after, .deleted toDelete.instruction)

/-- `countSteps`. -/
def countSteps : RecipeList → Int
  | [] => 0
  | _ :: next => 1 + countSteps next

/-- The first three steps of the paneer recipe of `main`. -/
def stepA : StepNode := ⟨1, "Crumble paneer into small pieces", "2 mins"⟩
def stepB : StepNode := ⟨2, "Heat oil in pan on medium flame", "1 min"⟩
def stepC : StepNode := ⟨3, "Add cumin seeds and let them splutter", "30 secs"⟩

/-- `createStep`: the data of a fresh node (its `next` is NULL). -/
def createStep (number : Int) (instruction time : String) : StepNode :=
  ⟨number, instruction, time⟩

/-- `insertAtBeginning`: the new `*head`. -/
def insertAtBeginning (head : RecipeList) (number : Int) (instruction time : String) :
    RecipeList :=
  createStep number instruction time :: head

/-- `insertAtEnd`: the new `*head`; the walk to the last node is the recursion. -/
def insertAtEnd : RecipeList → Int → String → String → RecipeList
  | [], number, instruction, time => [createStep number instruction time]
  | s :: next, number, instruction, time => s :: insertAtEnd next number instruction time

/-- `insertAfter`. The pointer `prevStep` is `none` for NULL and `some k` for the address
of the node at position `k`; the list seen from `head` is returned. A non-null pointer
that addresses no node of this list leaves this list as it is. -/
def insertAfter (head : RecipeList) (prevStep : Option Nat) (number : Int)
    (instruction time : String) : RecipeList :=
  match prevStep with
  | none => head
  | some k =>
      if k < head.length then
        head.take (k + 1) ++ createStep number instruction time :: head.drop (k + 1)
      else head

/-- A C string as the bytes it holds (the UTF-8 encoding of the text). -/
def cbytes (s : String) : List UInt8 :=
  s.data.flatMap String.utf8EncodeChar

/-- `strstr(haystack, needle) != NULL`: `needle` occurs in `haystack` as a run of bytes
(an empty `needle` always does). -/
def strstr (haystack needle : String) : Bool :=
  decide (cbytes needle <:+: cbytes haystack)

/-- Loop of `searchStep` from the node `temp` with the counter `position`. -/
def searchLoop : RecipeList → String → Int → Option (Int × StepNode)
  | [], _, _ => none
  | temp :: next, keyword, position =>
      if strstr temp.instruction keyword then some (position, temp)
      else searchLoop next keyword (position + 1)

/-- `searchStep`: `none` for NULL, otherwise the node found together with the step
number that is printed for it. -/
def searchStep (head : RecipeList) (keyword : String) : Option (Int × StepNode) :=
  searchLoop head keyword 1

/-- A call that changes a recipe list. `insertAfter` carries the position of the node its
non-null pointer addresses. -/
inductive RecipeOp where
  | insertAtBeginning (number : Int) (instruction time : String) : RecipeOp
  | insertAtEnd (number : Int) (instruction time : String) : RecipeOp
  | insertAfter (prevStep : Nat) (number : Int) (instruction time : String) : RecipeOp
  | deleteStep (position : Int) : RecipeOp
deriving DecidableEq

/-- Effect of one call on the list. -/
def applyOp (head : RecipeList) : RecipeOp → RecipeList
  | .insertAtBeginning number instruction time => insertAtBeginning head number instruction time
  | .insertAtEnd number instruction time => insertAtEnd head number instruction time
  | .insertAfter prevStep number instruction time =>
      insertAfter head (some prevStep) number instruction time
  | .deleteStep position => (deleteStep head position).1

/-- The list after a sequence of calls. -/
def runOps (head : RecipeList) (ops : List RecipeOp) : RecipeList :=
  ops.foldl applyOp head

/-- Number of insert calls in a sequence of calls. -/
def insertCalls : List RecipeOp → Nat
  | [] => 0
  | .deleteStep _ :: ops => insertCalls ops
  | _ :: ops => insertCalls ops + 1

/-- 1 when a `deleteStep` call reports a freed step, 0 when it reports an error. -/
def DeleteOutcome.freed : DeleteOutcome → Nat
  | .deleted _ => 1
  | _ => 0

/-- Number of `deleteStep` calls of the sequence that freed a step, when the sequence is
run from `head`. -/
def removals : RecipeList → List RecipeOp → Nat
  | _, [] => 0
  | head, .deleteStep position :: ops =>
      (deleteStep head position).2.freed + removals (deleteStep head position).1 ops
  | head, op :: ops => removals (applyOp head op) ops

/-- Every `insertAfter` of the sequence, run from `head`, is given a node of the list. -/
def PointersInList : RecipeList → List RecipeOp → Prop
  | _, [] => True
  | head, .insertAfter prevStep number instruction time :: ops =>
      prevStep < head.length ∧
        PointersInList (applyOp head (.insertAfter prevStep number instruction time)) ops
  | head, op :: ops => PointersInList (applyOp head op) ops

/-- The ten `insertAtEnd` calls that build the paneer recipe in `main`. -/
def paneerSteps : List RecipeOp :=
  [.insertAtEnd 1 "Crumble paneer into small pieces" "2 mins",
   .insertAtEnd 2 "Heat oil in pan on medium flame" "1 min",
   .insertAtEnd 3 "Add cumin seeds and let them splutter" "30 secs",
   .insertAtEnd 4 "Add chopped onions and green chili" "3 mins",
   .insertAtEnd 5 "Add chopped tomatoes and cook until soft" "4 mins",
   .insertAtEnd 6 "Add turmeric, red chili powder, coriander powder" "30 secs",
   .insertAtEnd 7 "Add crumbled paneer and mix well" "2 mins",
   .insertAtEnd 8 "Cook for 3-4 minutes stirring occasionally" "4 mins",
   .insertAtEnd 9 "Garnish with coriander leaves" "30 secs",
   .insertAtEnd 10 "Serve hot with roti or bread" "0 mins"]

/-- The calls of `main` on the paneer recipe up to the quick version: the ten steps, the
preparation step put in front, and `deleteStep(&paneerRecipe, 3)`. -/
def paneerEdits : List RecipeOp :=
  paneerSteps ++
    [.insertAtBeginning 0 "Gather all ingredients and keep ready" "2 mins", .deleteStep 3]

end Recipe
end NutriPlan

namespace NutriPlan
namespace PQ

/-- `#define MAX_SIZE 100`. -/
def MAX_SIZE : Nat := 100

/-- The `Meal` record of priority_queue.c. The `float` fields are payload only (the
queue never computes with them) and are kept as exact rationals. -/
structure Meal where
  name : String
  hindiName : String
  calories : Int
  protein : ℚ
  carbs : ℚ
  fats : ℚ
  cost : Int
  score : Int
deriving DecidableEq

/-- The `PriorityQueue` struct: `heap` gives the content of slot `i` of the array
`Meal heap[MAX_SIZE]`, `size` is the number of live slots. Slots at `size` and beyond
hold stale or indeterminate data that no operation reads. -/
structure PriorityQueue where
  heap : Nat → Meal
  size : Nat

/-- `initPQ`: only resets `size`; the array is left as it is. -/
def initPQ (pq : PriorityQueue) : PriorityQueue :=
  { pq with size := 0 }

/-- `swap(&heap[a], &heap[b])` on the array. -/
def swap (heap : Nat → Meal) (a b : Nat) : Nat → Meal :=
  fun k => if k = a then heap b else if k = b then heap a else heap k

/-- Recursion of `heapifyUp` on the array. The first argument bounds the recursion
depth; `index` itself is always enough, since every call moves to a smaller index. -/
def heapifyUpAux : Nat → (Nat → Meal) → Nat → (Nat → Meal)
  | 0, heap, _ => heap
  | fuel + 1, heap, index =>
      if index = 0 then heap
      else
        let parent := (index - 1) / 2
        if (heap index).score > (heap parent).score then
          heapifyUpAux fuel (swap heap index parent) parent
        else heap

/-- `heapifyUp(pq, index)`. -/
def heapifyUp (pq : PriorityQueue) (index : Nat) : PriorityQueue :=
  { pq with heap := heapifyUpAux index pq.heap index }

/-- Recursion of `heapifyDown` on the array with live size `size`. The first argument
bounds the recursion depth; `size - index` is always enough, since every call moves to
a larger index below `size`. -/
def heapifyDownAux : Nat → (Nat → Meal) → Nat → Nat → (Nat → Meal)
  | 0, heap, _, _ => heap
  | fuel + 1, heap, size, index =>
      let largest := index
      let left := 2 * index + 1
      let right := 2 * index + 2
      let largest := if left < size ∧ (heap left).score > (heap largest).score then left else largest
      let largest := if right < size ∧ (heap right).score > (heap largest).score then right else largest
      if largest ≠ index then
        heapifyDownAux fuel (swap heap index largest) size largest
      else heap

/-- `heapifyDown(pq, index)`. -/
def heapifyDown (pq : PriorityQueue) (index : Nat) : PriorityQueue :=
  { pq with heap := heapifyDownAux (pq.size - index) pq.heap pq.size index }

/-- `insertMeal`: rejected (state untouched) when the queue is full. -/
def insertMeal (pq : PriorityQueue) (name hindiName : String) (calories : Int)
    (protein carbs fats : ℚ) (cost : Int) (score : Int) : PriorityQueue :=
  if pq.size ≥ MAX_SIZE then pq
  else
    let newMeal : Meal := ⟨name, hindiName, calories, protein, carbs, fats, cost, score⟩
    let pq1 : PriorityQueue := { pq with heap := Function.update pq.heap pq.size newMeal }
    let pq2 := heapifyUp pq1 pq1.size
    { pq2 with size := pq2.size + 1 }

/-- The `Meal empty = {"", "", 0, 0, 0, 0, 0, 0}` returned on an empty queue. -/
def emptyMeal : Meal := ⟨"", "", 0, 0, 0, 0, 0, 0⟩

/-- `extractMax`: the returned meal and the queue afterwards. -/
def extractMax (pq : PriorityQueue) : Meal × PriorityQueue :=
  if pq.size = 0 then (emptyMeal, pq)
  else
    let maxMeal := pq.heap 0
    let pq1 : PriorityQueue := { pq with heap := Function.update pq.heap 0 (pq.heap (pq.size - 1)) }
    let pq2 : PriorityQueue := { pq1 with size := pq1.size - 1 }
    (maxMeal, heapifyDown pq2 0)

/-- `peekMax`. -/
def peekMax (pq : PriorityQueue) : Meal :=
  if pq.size = 0 then emptyMeal else pq.heap 0

/-- One `insertMeal` call whose arguments are the fields of `m`. -/
def insertOne (pq : PriorityQueue) (m : Meal) : PriorityQueue :=
  insertMeal pq m.name m.hindiName m.calories m.protein m.carbs m.fats m.cost m.score

/-- A sequence of `insertMeal` calls, in list order. -/
def insertAll (pq : PriorityQueue) (ms : List Meal) : PriorityQueue :=
  ms.foldl insertOne pq

/-- The top-K loop of `main`, `for (i = 1; i <= k && pq.size > 0; i++) extractMax(&pq)`:
the meals returned, in order, and the queue afterwards. -/
def topK : Nat → PriorityQueue → List Meal × PriorityQueue
  | 0, pq => ([], pq)
  | k + 1, pq =>
      if pq.size > 0 then
        let r := extractMax pq
        let rest := topK k r.2
        (r.1 :: rest.1, rest.2)
      else ([], pq)

/-- The live part of the array, slots `0 .. size-1`, in slot order. -/
def contents (pq : PriorityQueue) : List Meal :=
  (List.range pq.size).map pq.heap

/-- Max-heap ordering of the first `n` slots: no slot beats its parent `(i-1)/2`. -/
def IsHeap (heap : Nat → Meal) (n : Nat) : Prop :=
  ∀ i, 0 < i → i < n → (heap i).score ≤ (heap ((i - 1) / 2)).score

/-- A queue variable before `initPQ`: every slot holds the zero record. -/
def blankQueue : PriorityQueue := ⟨fun _ => emptyMeal, 0⟩

/-- Three meals passed to `insertMeal` with the same score 20. -/
def tieA : Meal := ⟨"Idli Sambar", "इडली सांभर", 280, 10, 48, 6, 40, 20⟩
def tieB : Meal := ⟨"Oats Upma", "ओट्स उपमा", 210, 8, 32, 6, 25, 20⟩
def tieC : Meal := ⟨"Boiled Eggs", "उबले अंडे", 240, 16, 22, 11, 25, 20⟩

/-- The six `insertMeal` calls of the first test case of `main` (goal "weight-loss"),
each with the score that `main` passes for it, worked out by hand from `calculateScore`
(for the first one `(int)(12.0 * 3) - 180 / 10 = 18`). -/
def scenario3 : List Meal :=
  [⟨"Moong Dal Cheela", "मूंग दाल चीला", 180, 12, 25, 4, 20, 18⟩,
   ⟨"Paneer Bhurji", "पनीर भुर्जी", 265, 18.5, 8, 14, 65, 29⟩,
   ⟨"Chicken Curry", "चिकन करी", 380, 32, 12, 15, 80, 58⟩,
   ⟨"Poha", "पोहा", 250, 6, 40, 7, 15, -7⟩,
   ⟨"Egg Curry", "अंडा करी", 350, 20, 18, 16, 45, 25⟩,
   ⟨"Dal Tadka", "दाल तड़का", 320, 14, 48, 8, 30, 10⟩]

/-- A call that changes the queue. -/
inductive QueueOp where
  | insertMeal (m : Meal) : QueueOp
  | extractMax : QueueOp
deriving DecidableEq

/-- Effect of one call on the queue (the meal returned by `extractMax` is dropped). -/
def applyOp (pq : PriorityQueue) : QueueOp → PriorityQueue
  | .insertMeal m => insertOne pq m
  | .extractMax => (extractMax pq).2

/-- The queue after `initPQ` and a sequence of `insertMeal` and `extractMax` calls. -/
def runOps (pq : PriorityQueue) (ops : List QueueOp) : PriorityQueue :=
  ops.foldl applyOp (initPQ pq)

end PQ
end NutriPlan

namespace NutriPlan
namespace Graph

/-- `#define MAX_FOODS 50`. -/
def MAX_FOODS : Nat := 50

/-- `#define MAX_QUEUE 50`. -/
def MAX_QUEUE : Nat := 50

/-- The `Food` vertex record of graph.c (the `float` field is payload only). -/
structure Food where
  name : String
  hindiName : String
  calories : Int
  protein : ℚ
  dietType : String
deriving DecidableEq

/-- The `FoodGraph` struct. `foods i` and `adjList i` give slot `i` of the two arrays
of `MAX_FOODS` entries; `adjList i` is the chain of `foodIndex` values read from the
head pointer along `next`. Vertex indices that are stored are natural numbers: a
negative index would already be out of bounds where it is written. -/
structure FoodGraph where
  foods : Nat → Food
  adjList : Nat → List Nat
  numFoods : Nat

/-- `initGraph`: no vertices, the `MAX_FOODS` heads set to NULL. -/
def initGraph (graph : FoodGraph) : FoodGraph :=
  { graph with
    numFoods := 0
    adjList := fun i => if i < MAX_FOODS then [] else graph.adjList i }

/-- `addFood`: the returned index (-1 when the graph is full) and the graph afterwards. -/
def addFood (graph : FoodGraph) (name hindiName : String) (calories : Int) (protein : ℚ)
    (dietType : String) : Int × FoodGraph :=
  if graph.numFoods ≥ MAX_FOODS then (-1, graph)
  else
    let index := graph.numFoods
    (index,
      { graph with
        foods := Function.update graph.foods index ⟨name, hindiName, calories, protein, dietType⟩
        numFoods := graph.numFoods + 1 })

/-- `addEdge`: pushes `food2` on the front of the chain of `food1`, then `food1` on the
front of the chain of `food2`. -/
def addEdge (graph : FoodGraph) (food1 food2 : Nat) : FoodGraph :=
  let g1 : FoodGraph :=
    { graph with adjList := Function.update graph.adjList food1 (food2 :: graph.adjList food1) }
  { g1 with adjList := Function.update g1.adjList food2 (food1 :: g1.adjList food2) }

/-- Local variables of `findSubstitutes` during the search: the arrays `visited` and
`queue`, the indices `front` and `rear`, and the vertices printed so far in print order
(`swapCount` is the length of that list). -/
structure BfsState where
  visited : Nat → Bool
  queue : Nat → Nat
  front : Nat
  rear : Nat
  swaps : List Nat

/-- Inner `while (temp != NULL)` loop of `findSubstitutes` over one adjacency chain.
`none` when an array would be indexed out of bounds. -/
def scanAdj : List Nat → BfsState → Option BfsState
  | [], st => some st
  | adjFood :: next, st =>
      if adjFood < MAX_FOODS then
        if st.visited adjFood = false then
          if st.rear < MAX_QUEUE then
            scanAdj next
              { st with
                visited := Function.update st.visited adjFood true
                queue := Function.update st.queue st.rear adjFood
                rear := st.rear + 1
                swaps := st.swaps ++ [adjFood] }
          else none
        else scanAdj next st
      else none

/-- Outer `while (front < rear)` loop of `findSubstitutes`. The first argument bounds the
number of iterations; `none` when it is used up or an array access is out of bounds. -/
def bfsLoop (graph : FoodGraph) : Nat → BfsState → Option BfsState
  | 0, _ => none
  | fuel + 1, st =>
      if st.front < st.rear then
        let current := st.queue st.front
        match scanAdj (graph.adjList current) { st with front := st.front + 1 } with
        | some st1 => bfsLoop graph fuel st1
        | none => none
      else some st

/-- `findSubstitutes`: the vertices printed under "AVAILABLE SWAPS", in print order.
An invalid index prints an error and reports no vertex. Every iteration of the outer
loop consumes one of the `MAX_QUEUE` queue slots, so `MAX_QUEUE + 1` bounds the number
of loop tests. `none` when the search would index an array out of bounds. -/
def findSubstitutes (graph : FoodGraph) (foodIndex : Int) : Option (List Nat) :=
  if foodIndex < 0 ∨ foodIndex ≥ graph.numFoods then some []
  else
    let start := foodIndex.toNat
    if start < MAX_FOODS then
      let st0 : BfsState :=
        { visited := Function.update (fun _ => false) start true
          queue := Function.update (fun _ => 0) 0 start
          front := 0
          rear := 1
          swaps := [] }
      (bfsLoop graph (MAX_QUEUE + 1) st0).map BfsState.swaps
    else none

/-- `areConnected`. -/
def areConnected (graph : FoodGraph) (food1 food2 : Nat) : Bool :=
  (graph.adjList food1).any (fun foodIndex => foodIndex == food2)

/-- `getDegree`. -/
def getDegree (graph : FoodGraph) (foodIndex : Nat) : Nat :=
  (graph.adjList foodIndex).length

/-- A call that mutates the graph. -/
inductive GraphOp where
  | addFood (name hindiName : String) (calories : Int) (protein : ℚ) (dietType : String) : GraphOp
  | addEdge (food1 food2 : Nat) : GraphOp
deriving DecidableEq

/-- Effect of one call on the graph. -/
def applyOp (graph : FoodGraph) : GraphOp → FoodGraph
  | .addFood name hindiName calories protein dietType =>
      (addFood graph name hindiName calories protein dietType).2
  | .addEdge food1 food2 => addEdge graph food1 food2

/-- The graph after `initGraph` and a sequence of `addFood` / `addEdge` calls. -/
def build (graph : FoodGraph) (ops : List GraphOp) : FoodGraph :=
  ops.foldl applyOp (initGraph graph)

/-- The undirected edge relation created by the `addEdge` calls of `ops`. -/
def Edge (ops : List GraphOp) (a b : Nat) : Prop :=
  GraphOp.addEdge a b ∈ ops ∨ GraphOp.addEdge b a ∈ ops

/-- The slots `0 .. rear-1` of the queue array, in slot order. -/
def queued (st : BfsState) : List Nat :=
  (List.range st.rear).map st.queue

/-- A graph variable before `initGraph`. -/
def blankGraph : FoodGraph := ⟨fun _ => ⟨"", "", 0, 0, ""⟩, fun _ => [], 0⟩

/-- The `addFood` and `addEdge` calls of the eight-vertex paneer graph: paneer 0, tofu 1, mushroom 2, soya 3, dal 4, chole 5, rajma 6, egg 7. -/
def paneerOps : List GraphOp :=
  [.addFood "Paneer Bhurji" "पनीर भुर्जी" 265 18.5 "veg",
   .addFood "Tofu Scramble" "टोफू" 180 15 "veg",
   .addFood "Mushroom Curry" "मशरूम करी" 150 8 "veg",
   .addFood "Soya Chunks" "सोया" 200 20 "veg",
   .addFood "Dal Tadka" "दाल तड़का" 180 12 "veg",
   .addFood "Chole" "छोले" 420 16 "veg",
   .addFood "Rajma" "राजमा" 380 16 "veg",
   .addFood "Egg Curry" "अंडा करी" 350 20 "egg",
   .addEdge 0 1, .addEdge 0 2, .addEdge 0 3,
   .addEdge 4 5, .addEdge 4 6, .addEdge 4 1,
   .addEdge 1 3, .addEdge 7 0, .addEdge 5 6]

/-- The state of `findSubstitutes` when its outer loop is entered: the start vertex is
marked and sits in slot 0 of the queue. -/
def bfsStart (start : Nat) : BfsState :=
  { visited := Function.update (fun _ => false) start true
    queue := Function.update (fun _ => 0) 0 start
    front := 0
    rear := 1
    swaps := [] }

/-- The search state after `k` iterations of the outer `while (front < rear)` loop of
`findSubstitutes` (fewer when the queue runs out first). `none` when an array would be
indexed out of bounds. -/
def bfsIter (graph : FoodGraph) : Nat → BfsState → Option BfsState
  | 0, st => some st
  | k + 1, st =>
      if st.front < st.rear then
        let current := st.queue st.front
        match scanAdj (graph.adjList current) { st with front := st.front + 1 } with
        | some st1 => bfsIter graph k st1
        | none => none
      else some st

/-- What one call pushes on the chain of vertex `v`, in push order: `addEdge(a, b)` pushes
`b` when `a` is `v`, then `a` when `b` is `v`. -/
def edgeEnds (v : Nat) : GraphOp → List Nat
  | .addFood _ _ _ _ _ => []
  | .addEdge food1 food2 =>
      (if food1 = v then [food2] else []) ++ (if food2 = v then [food1] else [])

/-- `Walk r a b n`: there is a walk of `n` steps of the relation `r` from `a` to `b`. -/
inductive Walk (r : Nat → Nat → Prop) (a : Nat) : Nat → Nat → Prop where
  | zero : Walk r a a 0
  | step {b c n : Nat} : Walk r a b n → r b c → Walk r a c (n + 1)

/-- The shortest-path distance from `a` to `b` is `n`: a walk of `n` steps exists and none
is shorter. -/
def IsDist (r : Nat → Nat → Prop) (a b n : Nat) : Prop :=
  Walk r a b n ∧ ∀ m, Walk r a b m → n ≤ m

/-- The vertices of `chain` that are not in `seen`, each at its first occurrence, in the
order of `chain`. -/
def freshOf : List Nat → List Nat → List Nat
  | [], _ => []
  | a :: rest, seen =>
      if a ∈ seen then freshOf rest seen else a :: freshOf rest (seen ++ [a])

/-- Three vertices with a repeated edge, a cycle and a self-loop. -/
def loopyOps : List GraphOp :=
  [.addFood "Paneer Bhurji" "पनीर भुर्जी" 265 18.5 "veg",
   .addFood "Tofu Scramble" "टोफू" 180 15 "veg",
   .addFood "Soya Chunks" "सोया" 200 20 "veg",
   .addEdge 0 1, .addEdge 0 1, .addEdge 1 2, .addEdge 2 0, .addEdge 1 1]

end Graph
end NutriPlan

namespace NutriPlan
namespace Stack

/-- `#define MAX_STACK 50`. -/
def MAX_STACK : Int := 50

/-- The `CheatMeal` record of stack.c. -/
structure CheatMeal where
  name : String
  icon : String
  calories : Int
  timestamp : String
  consequence : String
deriving DecidableEq

/-- The `CheatStack` struct: `items i` gives slot `i` of the array
`CheatMeal items[MAX_STACK]`, `top` is the index of the top element, -1 when there is
none. Slots above `top` hold stale or indeterminate data that no operation reads. -/
structure CheatStack where
  items : Nat → CheatMeal
  top : Int

/-- `initStack`: only sets `top`. -/
def initStack (stack : CheatStack) : CheatStack :=
  { stack with top := -1 }

/-- `isEmpty`. -/
def isEmpty (stack : CheatStack) : Bool :=
  stack.top == -1

/-- `isFull`. -/
def isFull (stack : CheatStack) : Bool :=
  stack.top == MAX_STACK - 1

/-- The text that `push` writes into `consequence` with `sprintf`: `daysDelayed` is the C
quotient `calories / 500`, and `%d` prints an `int` in decimal. -/
def consequenceText (calories : Int) : String :=
  let daysDelayed := Int.tdiv calories 500
  "🔥 " ++ toString calories ++ " kcal = Goal delayed by ~" ++ toString daysDelayed ++ " day(s)"

/-- `push`. The argument `now` is the text that `strftime` produces from the clock
reading taken inside the call ("%Y-%m-%d %H:%M:%S", local time). A full stack is left
as it is. -/
def push (stack : CheatStack) (name icon : String) (calories : Int) (now : String) :
    CheatStack :=
  if isFull stack then stack
  else
    let top := stack.top + 1
    { items := Function.update stack.items top.toNat
        ⟨name, icon, calories, now, consequenceText calories⟩
      top := top }

/-- The `CheatMeal empty = {"", "", 0, "", ""}` returned on an empty stack. -/
def emptyCheat : CheatMeal := ⟨"", "", 0, "", ""⟩

/-- `pop`: the returned record and the stack afterwards. -/
def pop (stack : CheatStack) : CheatMeal × CheatStack :=
  if isEmpty stack then (emptyCheat, stack)
  else (stack.items stack.top.toNat, { stack with top := stack.top - 1 })

/-- `peek`. -/
def peek (stack : CheatStack) : CheatMeal :=
  if isEmpty stack then emptyCheat else stack.items stack.top.toNat

/-- `clearStack`. -/
def clearStack (stack : CheatStack) : CheatStack :=
  { stack with top := -1 }

/-- The elements the stack holds, slots `0 .. top`, bottom first. -/
def contents (stack : CheatStack) : List CheatMeal :=
  (List.range (stack.top + 1).toNat).map stack.items

/-- A call that changes a cheat stack; `push` carries the clock text of that call. -/
inductive StackOp where
  | push (name icon : String) (calories : Int) (now : String) : StackOp
  | pop : StackOp
  | clearStack : StackOp
deriving DecidableEq

/-- Effect of one call on the stack. -/
def applyOp (stack : CheatStack) : StackOp → CheatStack
  | .push name icon calories now => push stack name icon calories now
  | .pop => (pop stack).2
  | .clearStack => clearStack stack

/-- The stack after `initStack` and a sequence of calls. -/
def runOps (stack : CheatStack) (ops : List StackOp) : CheatStack :=
  ops.foldl applyOp (initStack stack)

/-- A stack variable before `initStack`. -/
def blankStack : CheatStack := ⟨fun _ => emptyCheat, 0⟩

end Stack
end NutriPlan

namespace NutriPlan

/-- A graph whose 50 vertex slots are all taken. -/
def fullGraph : Graph.FoodGraph := ⟨Graph.blankGraph.foods, fun _ => [], 50⟩

/-- A queue whose 100 heap slots are all taken (by equal meals). -/
def fullQueue : PQ.PriorityQueue := ⟨fun _ => PQ.tieA, 100⟩

/-- A cheat stack whose 50 slots are all taken. -/
def fullStack : Stack.CheatStack :=
  ⟨fun _ => ⟨"Cola", "🥤", 150, "2024-03-03 16:20:45", Stack.consequenceText 150⟩, 49⟩

end NutriPlan

/-! ## Theorems -/

namespace NutriPlan

end NutriPlan

namespace NutriPlan
namespace Tree

theorem inorder_insertDish_perm (t : FoodNode) (d : FoodData) :
    (inorderTraversal (insertDish t d)).Perm (d :: inorderTraversal t) := by
  induction t with
  | null => simp [insertDish, insertFood, createNode, inorderTraversal]
  | node e l r ihl ihr =>
    unfold insertDish at ihl ihr ⊢
    unfold insertFood
    split
    · simp only [inorderTraversal, List.append_assoc]
      exact List.Perm.append_right _ ihl
    · simp only [inorderTraversal, List.append_assoc]
      refine (List.Perm.append_left _ (List.Perm.append_left _ ihr)).trans ?_
      rw [← List.append_assoc, ← List.append_assoc]
      exact List.perm_middle

theorem mem_inorder_insertDish (t : FoodNode) (d x : FoodData) :
    x ∈ inorderTraversal (insertDish t d) ↔ x = d ∨ x ∈ inorderTraversal t := by
  rw [(inorder_insertDish_perm t d).mem_iff]; simp

theorem ordered_insertDish (t : FoodNode) (d : FoodData) (h : Ordered t) :
    Ordered (insertDish t d) := by
  induction t with
  | null => simp [insertDish, insertFood, createNode, Ordered, inorderTraversal]
  | node e l r ihl ihr =>
    obtain ⟨hl, hr, ol, or_⟩ := h
    have il := ihl ol
    have ir := ihr or_
    have ml := mem_inorder_insertDish l d
    have mr := mem_inorder_insertDish r d
    unfold insertDish at il ir ml mr ⊢
    unfold insertFood
    split
    · rename_i hlt
      refine ⟨?_, hr, il, or_⟩
      intro x hx
      rcases (ml x).1 hx with rfl | hx
      · exact hlt
      · exact hl x hx
    · rename_i hge
      refine ⟨hl, ?_, ol, ir⟩
      intro x hx
      rcases (mr x).1 hx with rfl | hx
      · exact not_lt.1 hge
      · exact hr x hx

theorem ordered_insertAll (ds : List FoodData) : Ordered (insertAll ds) := by
  unfold insertAll
  suffices h : ∀ t, Ordered t → Ordered (ds.foldl insertDish t) from h _ trivial
  induction ds with
  | nil => intro t h; exact h
  | cons d ds ih => intro t h; exact ih _ (ordered_insertDish t d h)

theorem inorder_sorted_of_ordered (t : FoodNode) (h : Ordered t) :
    ((inorderTraversal t).map FoodData.calories).Sorted (· ≤ ·) := by
  induction t with
  | null => simp [inorderTraversal]
  | node e l r ihl ihr =>
    obtain ⟨hl, hr, ol, or_⟩ := h
    simp only [inorderTraversal, List.map_append, List.map_cons, List.map_nil, List.Sorted,
      List.append_assoc, List.singleton_append]
    rw [List.pairwise_append]
    refine ⟨ihl ol, ?_, ?_⟩
    · rw [List.pairwise_cons]
      refine ⟨?_, ihr or_⟩
      intro a ha
      obtain ⟨x, hx, rfl⟩ := List.mem_map.1 ha
      exact hr x hx
    · intro a ha b hb
      obtain ⟨x, hx, rfl⟩ := List.mem_map.1 ha
      rcases List.mem_cons.1 hb with rfl | hb
      · exact le_of_lt (hl x hx)
      · obtain ⟨y, hy, rfl⟩ := List.mem_map.1 hb
        exact le_trans (le_of_lt (hl x hx)) (hr y hy)

/-- C3: for every sequence of `insertFood` calls starting from the empty tree, the calorie
values visited by `inorderTraversal` form a non-decreasing sequence. -/
theorem inorderTraversal_calories_nondecreasing (ds : List FoodData) :
    ((inorderTraversal (insertAll ds)).map FoodData.calories).Sorted (· ≤ ·) :=
  inorder_sorted_of_ordered _ (ordered_insertAll ds)

/-- C1 (evaluation at the failing input): after inserting two 320-kcal dishes, the scan of
the range [320, 320] with filter "all" emits only the first one, although both satisfy the
filter. -/
theorem searchInRange_omits_equal_calorie_dish :
    searchInRange (insertAll [dalTadka, paneerParatha]) 320 320 "all" = [dalTadka] ∧
    (inorderTraversal (insertAll [dalTadka, paneerParatha])).filter (specRangeFilter 320 320 "all")
      = [dalTadka, paneerParatha] := by
  decide

/-- C2 (evaluation at the failing input): `paneerParatha` is inserted, yet the scan
`searchInRange(root, 320, 320, "veg")` on its own calories and diet type does not emit it. -/
theorem searchInRange_own_key_misses_dish :
    paneerParatha ∈ inorderTraversal (insertAll [dalTadka, paneerParatha]) ∧
    paneerParatha ∉ searchInRange (insertAll [dalTadka, paneerParatha])
      paneerParatha.calories paneerParatha.calories paneerParatha.dietType := by
  decide

theorem inorder_foldl_perm (ds : List FoodData) : ∀ t : FoodNode,
    (inorderTraversal (ds.foldl insertDish t)).Perm (inorderTraversal t ++ ds) := by
  induction ds with
  | nil => intro t; simp
  | cons d ds ih =>
    intro t
    simp only [List.foldl_cons]
    refine (ih _).trans ?_
    refine ((inorder_insertDish_perm t d).append_right ds).trans ?_
    simp only [List.cons_append]
    exact List.perm_middle.symm

theorem inorder_insertAll_perm (ds : List FoodData) :
    (inorderTraversal (insertAll ds)).Perm ds := by
  have := inorder_foldl_perm ds .null
  simpa [insertAll, inorderTraversal] using this

theorem findMin_spec (t : FoodNode) (ho : Ordered t) (hne : t ≠ .null) :
    ∃ m, findMin t = .found m ∧ m ∈ inorderTraversal t ∧
      ∀ x ∈ inorderTraversal t, m.calories ≤ x.calories := by
  induction t with
  | null => exact absurd rfl hne
  | node d l r ihl _ =>
    obtain ⟨hl, hr, ol, _⟩ := ho
    cases l with
    | null =>
      refine ⟨d, rfl, by simp [inorderTraversal], ?_⟩
      intro x hx
      simp only [inorderTraversal, List.nil_append, List.singleton_append, List.mem_cons] at hx
      rcases hx with rfl | hx
      · exact le_refl _
      · exact hr x hx
    | node d1 l1 r1 =>
      obtain ⟨m, hm, hmem, hmin⟩ := ihl ol (by simp)
      refine ⟨m, by rw [findMin]; exact hm, by simp [inorderTraversal] at hmem ⊢; tauto, ?_⟩
      intro x hx
      have hmd := hl m hmem
      simp only [inorderTraversal, List.mem_append, List.mem_singleton] at hx
      rcases hx with (hx | rfl) | hx
      · exact hmin x (by simp only [inorderTraversal, List.mem_append, List.mem_singleton]; exact hx)
      · exact le_of_lt hmd
      · exact le_trans (le_of_lt hmd) (hr x hx)

theorem findMax_spec (t : FoodNode) (ho : Ordered t) (hne : t ≠ .null) :
    ∃ m, findMax t = .found m ∧ m ∈ inorderTraversal t ∧
      ∀ x ∈ inorderTraversal t, x.calories ≤ m.calories := by
  induction t with
  | null => exact absurd rfl hne
  | node d l r _ ihr =>
    obtain ⟨hl, hr, _, or_⟩ := ho
    cases r with
    | null =>
      refine ⟨d, by cases l <;> rfl, by simp [inorderTraversal], ?_⟩
      intro x hx
      simp only [inorderTraversal, List.append_nil, List.mem_append, List.mem_singleton] at hx
      rcases hx with hx | rfl
      · exact le_of_lt (hl x hx)
      · exact le_refl _
    | node d1 l1 r1 =>
      obtain ⟨m, hm, hmem, hmax⟩ := ihr or_ (by simp)
      refine ⟨m, by rw [findMax]; exact hm, by simp [inorderTraversal] at hmem ⊢; tauto, ?_⟩
      intro x hx
      have hmd := hr m hmem
      simp only [inorderTraversal, List.mem_append, List.mem_singleton] at hx
      rcases hx with (hx | rfl) | hx
      · exact le_trans (le_of_lt (hl x hx)) hmd
      · exact hmd
      · exact hmax x (by simp only [inorderTraversal, List.mem_append, List.mem_singleton]; exact hx)

theorem insertAll_ne_null (ds : List FoodData) (hne : ds ≠ []) : insertAll ds ≠ .null := by
  intro h
  have := inorder_insertAll_perm ds
  rw [h] at this
  simp only [inorderTraversal] at this
  exact hne (List.nil_perm.1 this)

/-- C21: on every non-empty tree built by `insertFood` calls, `findMin` returns an inserted
dish whose calories are at most those of every inserted dish, and `findMax` returns an
inserted dish whose calories are at least those of every inserted dish. -/
theorem findMin_findMax_extremes (ds : List FoodData) (hne : ds ≠ []) :
    (∃ m, findMin (insertAll ds) = .found m ∧ m ∈ ds ∧ ∀ d ∈ ds, m.calories ≤ d.calories) ∧
    (∃ m, findMax (insertAll ds) = .found m ∧ m ∈ ds ∧ ∀ d ∈ ds, d.calories ≤ m.calories) := by
  have hperm := inorder_insertAll_perm ds
  have ho := ordered_insertAll ds
  have hnn := insertAll_ne_null ds hne
  constructor
  · obtain ⟨m, h1, h2, h3⟩ := findMin_spec _ ho hnn
    exact ⟨m, h1, hperm.mem_iff.1 h2, fun d hd => h3 d (hperm.mem_iff.2 hd)⟩
  · obtain ⟨m, h1, h2, h3⟩ := findMax_spec _ ho hnn
    exact ⟨m, h1, hperm.mem_iff.1 h2, fun d hd => h3 d (hperm.mem_iff.2 hd)⟩

/-- C21 on the fourteen dishes of `main`: the lowest is Moong Dal Cheela (180 kcal), the
highest Chole (420 kcal). -/
theorem findMin_findMax_extremes_main :
    (mainFoods ≠ [] ∧
      findMin (insertAll mainFoods)
        = .found ⟨"Moong Dal Cheela", "मूंग दाल चीला", 180, 12, 25, 4, 20, "veg"⟩ ∧
      findMax (insertAll mainFoods) = .found ⟨"Chole", "छोले", 420, 18, 65, 10, 45, "veg"⟩) ∧
    ((∃ m, findMin (insertAll mainFoods) = .found m ∧ m ∈ mainFoods ∧
        ∀ d ∈ mainFoods, m.calories ≤ d.calories) ∧
      (∃ m, findMax (insertAll mainFoods) = .found m ∧ m ∈ mainFoods ∧
        ∀ d ∈ mainFoods, d.calories ≤ m.calories)) :=
  ⟨⟨by decide, by decide, by decide⟩, findMin_findMax_extremes mainFoods (by decide)⟩

/-- C22 (evaluation at the failing input): with `root = NULL`, the tree before any
insertion, `findMin` and `findMax` read `root->left` and `root->right` through the NULL
pointer instead of returning a "none" value. -/
theorem findMin_findMax_null_dereference :
    insertAll [] = .null ∧ findMin (insertAll []) = .nullDereference ∧
    findMax (insertAll []) = .nullDereference := by
  decide

theorem ordered_nodes (t : FoodNode) (ho : Ordered t) :
    ∀ d l r, FoodNode.node d l r ∈ nodes t →
      (∀ x ∈ inorderTraversal l, x.calories < d.calories) ∧
      (∀ x ∈ inorderTraversal r, d.calories ≤ x.calories) := by
  induction t with
  | null => intro d l r h; simp [nodes] at h
  | node e l0 r0 ihl ihr =>
    obtain ⟨hl, hr, ol, or_⟩ := ho
    intro d l r h
    simp only [nodes, List.mem_cons, List.mem_append, FoodNode.node.injEq] at h
    rcases h with ⟨rfl, rfl, rfl⟩ | h | h
    · exact ⟨hl, hr⟩
    · exact ihl ol d l r h
    · exact ihr or_ d l r h

/-- C23 fails: after inserting two 320-kcal dishes, the second one is in the right subtree
of the node holding the first, and its calories are not strictly greater than that
node's. -/
theorem right_subtree_holds_equal_calories :
    insertAll [dalTadka, paneerParatha]
      = .node dalTadka .null (.node paneerParatha .null .null) ∧
    ¬ (∀ x ∈ inorderTraversal (.node paneerParatha .null .null),
        x.calories > dalTadka.calories) := by
  decide

/-- C23 as amended: in every tree built by `insertFood` calls and at every node `n` of it,
every dish in the left subtree of `n` has calories strictly below those of `n` (hence at
most those of `n`), and every dish in the right subtree of `n` has calories greater than
or equal to those of `n`. -/
theorem insertFood_subtree_order (ds : List FoodData) (d : FoodData) (l r : FoodNode)
    (hnode : FoodNode.node d l r ∈ nodes (insertAll ds)) :
    (∀ x ∈ inorderTraversal l, x.calories < d.calories ∧ x.calories ≤ d.calories) ∧
    (∀ x ∈ inorderTraversal r, d.calories ≤ x.calories) := by
  obtain ⟨h1, h2⟩ := ordered_nodes _ (ordered_insertAll ds) d l r hnode
  exact ⟨fun x hx => ⟨h1 x hx, le_of_lt (h1 x hx)⟩, h2⟩

/-- C23 as amended, at the node of the first 320-kcal dish after two such insertions. -/
theorem insertFood_subtree_order_equal_keys :
    FoodNode.node dalTadka .null (.node paneerParatha .null .null)
      ∈ nodes (insertAll [dalTadka, paneerParatha]) ∧
    ((∀ x ∈ inorderTraversal FoodNode.null,
        x.calories < dalTadka.calories ∧ x.calories ≤ dalTadka.calories) ∧
      (∀ x ∈ inorderTraversal (.node paneerParatha .null .null),
        dalTadka.calories ≤ x.calories)) :=
  ⟨by decide,
   insertFood_subtree_order [dalTadka, paneerParatha] dalTadka .null
    (.node paneerParatha .null .null) (by decide)⟩

theorem filter_inorder_insertDish (t : FoodNode) (d : FoodData) (c : Int) (ho : Ordered t) :
    (inorderTraversal (insertDish t d)).filter (fun x => decide (x.calories = c)) =
      (inorderTraversal t).filter (fun x => decide (x.calories = c)) ++
        [d].filter (fun x => decide (x.calories = c)) := by
  induction t with
  | null => simp [insertDish, insertFood, createNode, inorderTraversal]
  | node e l r ihl ihr =>
    obtain ⟨hl, hr, ol, or_⟩ := ho
    have il := ihl ol
    have ir := ihr or_
    unfold insertDish at il ir ⊢
    unfold insertFood
    split
    · rename_i hlt
      simp only [inorderTraversal, List.filter_append, il, List.append_assoc]
      by_cases hdc : d.calories = c
      · have he : ¬ (e.calories = c) := by omega
        have hrn : (inorderTraversal r).filter (fun x => decide (x.calories = c)) = [] := by
          rw [List.filter_eq_nil_iff]
          intro x hx
          have := hr x hx
          simp only [decide_eq_true_eq]
          omega
        simp [hdc, he, hrn]
      · simp [hdc]
    · simp only [inorderTraversal, List.filter_append, ir, List.append_assoc]

theorem filter_inorder_foldl (ds : List FoodData) (c : Int) : ∀ t : FoodNode, Ordered t →
    (inorderTraversal (ds.foldl insertDish t)).filter (fun x => decide (x.calories = c)) =
      (inorderTraversal t).filter (fun x => decide (x.calories = c)) ++
        ds.filter (fun x => decide (x.calories = c)) := by
  induction ds with
  | nil => intro t _; simp
  | cons d ds ih =>
    intro t ho
    simp only [List.foldl_cons]
    rw [ih _ (ordered_insertDish t d ho), filter_inorder_insertDish t d c ho, List.append_assoc,
      ← List.filter_append]
    rfl

/-- Two lists sorted by calories that agree, for every calorie value, on the sequence of
their dishes of that value are equal. -/
theorem eq_of_sorted_of_filter_eq : ∀ (l1 l2 : List FoodData),
    l1.Sorted caloriesLE → l2.Sorted caloriesLE →
    (∀ c : Int, l1.filter (fun x => decide (x.calories = c))
      = l2.filter (fun x => decide (x.calories = c))) → l1 = l2 := by
  intro l1
  induction l1 with
  | nil =>
    intro l2 _ _ h
    cases l2 with
    | nil => rfl
    | cons b l2 =>
      have := h b.calories
      simp at this
  | cons a l1 ih =>
    intro l2 h1 h2 h
    cases l2 with
    | nil =>
      have := h a.calories
      simp at this
    | cons b l2 =>
      have ha := List.rel_of_sorted_cons h1
      have hb := List.rel_of_sorted_cons h2
      have hab : a.calories = b.calories := by
        have hA : a ∈ (b :: l2).filter (fun x => decide (x.calories = a.calories)) := by
          rw [← h a.calories]; simp
        have hB : b ∈ (a :: l1).filter (fun x => decide (x.calories = b.calories)) := by
          rw [h b.calories]; simp
        have hA1 := (List.mem_filter.1 hA).1
        have hB1 := (List.mem_filter.1 hB).1
        have le1 : b.calories ≤ a.calories := by
          rcases List.mem_cons.1 hA1 with rfl | hm
          · exact le_refl _
          · exact hb a hm
        have le2 : a.calories ≤ b.calories := by
          rcases List.mem_cons.1 hB1 with rfl | hm
          · exact le_refl _
          · exact ha b hm
        omega
      have hhead := h a.calories
      simp only [List.filter_cons, decide_True, if_true, hab.symm, List.cons.injEq] at hhead
      obtain ⟨rfl, htail⟩ := hhead
      congr 1
      apply ih l2 (List.Sorted.of_cons h1) (List.Sorted.of_cons h2)
      intro c
      by_cases hc : a.calories = c
      · subst hc; exact htail
      · have := h c
        simpa [List.filter_cons, hc] using this

/-- C24: for every sequence of `insertFood` calls, `inorderTraversal` visits every
inserted dish exactly once (its output is a rearrangement of the insertion sequence), the
output is sorted by calories, and the dishes of any one calorie value come out in the order
in which they were inserted: the output is the stable sort of the insertion sequence by
calories, here the insertion sort of the library, which keeps equal keys in input
order. -/
theorem inorderTraversal_stable_sort (ds : List FoodData) :
    (inorderTraversal (insertAll ds)).Perm ds ∧
    ((inorderTraversal (insertAll ds)).map FoodData.calories).Sorted (· ≤ ·) ∧
    (∀ c : Int, (inorderTraversal (insertAll ds)).filter (fun x => decide (x.calories = c))
      = ds.filter (fun x => decide (x.calories = c))) ∧
    inorderTraversal (insertAll ds) = ds.insertionSort caloriesLE := by
  have hperm := inorder_insertAll_perm ds
  have hsorted := inorder_sorted_of_ordered _ (ordered_insertAll ds)
  have hfilter : ∀ c : Int,
      (inorderTraversal (insertAll ds)).filter (fun x => decide (x.calories = c))
        = ds.filter (fun x => decide (x.calories = c)) := by
    intro c
    have := filter_inorder_foldl ds c .null trivial
    simpa [insertAll, inorderTraversal] using this
  refine ⟨hperm, hsorted, hfilter, ?_⟩
  apply eq_of_sorted_of_filter_eq
  · have := hsorted
    rw [List.Sorted, List.pairwise_map] at this
    exact this
  · exact List.sorted_insertionSort caloriesLE ds
  · intro c
    rw [hfilter c]
    -- the dishes of calorie value `c` keep their input order under insertion sort
    have hsub : List.Sublist (ds.filter (fun x => decide (x.calories = c)))
        (ds.insertionSort caloriesLE) := by
      apply List.sublist_insertionSort
      · rw [List.pairwise_filter]
        apply List.pairwise_of_forall
        intro x y hx hy
        have hx1 : x.calories = c := by simpa using hx
        have hy1 : y.calories = c := by simpa using hy
        show x.calories ≤ y.calories
        omega
      · exact List.filter_sublist _
    have hsub2 := hsub.filter (fun x => decide (x.calories = c))
    rw [List.filter_filter] at hsub2
    simp only [Bool.and_self] at hsub2
    have hlen : (ds.filter (fun x => decide (x.calories = c))).length
        = ((ds.insertionSort caloriesLE).filter (fun x => decide (x.calories = c))).length :=
      ((List.perm_insertionSort caloriesLE ds).filter _).length_eq.symm
    exact hsub2.eq_of_length hlen

/-- C24 on the fourteen dishes of `main`: the three 320-kcal dishes come out as Dal Tadka,
Fish Curry, Paneer Paratha and the two 380-kcal dishes as Rajma Chawal, Chicken Curry. -/
theorem inorderTraversal_stable_sort_main :
    (inorderTraversal (insertAll mainFoods)).map FoodData.name
      = ["Moong Dal Cheela", "Oats Upma", "Egg Bhurji", "Boiled Eggs", "Poha", "Paneer Bhurji",
         "Idli Sambar", "Dal Tadka", "Fish Curry", "Paneer Paratha", "Egg Curry",
         "Rajma Chawal", "Chicken Curry", "Chole"] ∧
    inorderTraversal (insertAll mainFoods) = mainFoods.insertionSort caloriesLE :=
  ⟨by decide, (inorderTraversal_stable_sort mainFoods).2.2.2⟩

theorem searchInRange_eq_filter (t : FoodNode) (ho : Ordered t)
    (hnd : ((inorderTraversal t).map FoodData.calories).Nodup)
    (minCal maxCal : Int) (dietType : String) :
    searchInRange t minCal maxCal dietType
      = (inorderTraversal t).filter (specRangeFilter minCal maxCal dietType) := by
  induction t with
  | null => simp [searchInRange, inorderTraversal]
  | node d l r ihl ihr =>
    obtain ⟨hl, hr, ol, or_⟩ := ho
    simp only [inorderTraversal, List.map_append, List.map_cons, List.map_nil,
      List.append_assoc, List.singleton_append] at hnd
    have hndl := (List.nodup_append.1 hnd).1
    have hndr := (List.nodup_cons.1 (List.nodup_append.1 hnd).2.1).2
    have hdr : ∀ x ∈ inorderTraversal r, d.calories < x.calories := by
      intro x hx
      have h1 := hr x hx
      have h2 : d.calories ∉ (inorderTraversal r).map FoodData.calories :=
        (List.nodup_cons.1 (List.nodup_append.1 hnd).2.1).1
      have h3 : x.calories ≠ d.calories := by
        intro he
        exact h2 (List.mem_map.2 ⟨x, hx, he⟩)
      omega
    simp only [searchInRange, inorderTraversal, List.filter_append, ihl ol hndl, ihr or_ hndr]
    congr 1
    · congr 1
      · split
        · rfl
        · rename_i hmin
          symm
          rw [List.filter_eq_nil_iff]
          intro x hx
          have := hl x hx
          simp only [specRangeFilter, decide_eq_true_eq]
          omega
      · by_cases hin : d.calories ≥ minCal ∧ d.calories ≤ maxCal
        · by_cases hdiet : dietType = "all" ∨ d.dietType = dietType
          · have : specRangeFilter minCal maxCal dietType d = true := by
              simp only [specRangeFilter, decide_eq_true_eq]
              exact ⟨hin.1, hin.2, hdiet⟩
            simp [hin, hdiet, this]
          · have : specRangeFilter minCal maxCal dietType d = false := by
              simp only [specRangeFilter, decide_eq_false_iff_not]
              tauto
            simp [hin, hdiet, this]
        · have : specRangeFilter minCal maxCal dietType d = false := by
            simp only [specRangeFilter, decide_eq_false_iff_not]
            intro h
            exact hin ⟨h.1, h.2.1⟩
          simp [hin, this]
    · split
      · rfl
      · rename_i hmax
        symm
        rw [List.filter_eq_nil_iff]
        intro x hx
        have := hdr x hx
        simp only [specRangeFilter, decide_eq_true_eq]
        omega

/-- C29: on every tree built by `insertFood` calls with pairwise distinct calorie values,
and for every `minCal`, `maxCal` and diet filter, the rows that `searchInRange` prints,
descending left only when `minCal < root->calories` and right only when
`maxCal > root->calories`, are the full in-order traversal filtered by
`minCal <= calories <= maxCal` and the diet test. -/
theorem searchInRange_eq_filtered_inorder (ds : List FoodData)
    (hdistinct : (ds.map FoodData.calories).Nodup)
    (minCal maxCal : Int) (dietType : String) :
    searchInRange (insertAll ds) minCal maxCal dietType
      = (inorderTraversal (insertAll ds)).filter (specRangeFilter minCal maxCal dietType) := by
  apply searchInRange_eq_filter _ (ordered_insertAll ds)
  exact ((inorder_insertAll_perm ds).map FoodData.calories).nodup_iff.2 hdistinct

/-- C29 on the first seven dishes of `main` (180 to 280 kcal, all distinct), with the
query of `main` for 150 to 300 kcal and "veg". -/
theorem searchInRange_eq_filtered_inorder_distinct :
    ((distinctFoods.map FoodData.calories).Nodup ∧
      (searchInRange (insertAll distinctFoods) 150 300 "veg").map FoodData.name
        = ["Moong Dal Cheela", "Oats Upma", "Poha", "Paneer Bhurji", "Idli Sambar"]) ∧
    searchInRange (insertAll distinctFoods) 150 300 "veg"
      = (inorderTraversal (insertAll distinctFoods)).filter (specRangeFilter 150 300 "veg") :=
  ⟨⟨by decide, by decide⟩,
   searchInRange_eq_filtered_inorder distinctFoods (by decide) 150 300 "veg"⟩

end Tree
end NutriPlan

namespace NutriPlan
namespace Recipe

theorem reverseLoop_eq (prev current : RecipeList) :
    reverseLoop prev current = current.reverse ++ prev := by
  induction current generalizing prev with
  | nil => simp [reverseLoop]
  | cons s next ih => simp [reverseLoop, ih]

/-- C9: for every recipe list, the empty and the one-element list included, applying
`reverseRecipe` twice gives back the original list, element by element in the same order. -/
theorem reverseRecipe_reverseRecipe (head : RecipeList) :
    reverseRecipe (reverseRecipe head) = head := by
  simp [reverseRecipe, reverseLoop_eq]

/-- C10 (evaluation at the failing input): on a three-step list, `deleteStep` with the
negative position -1 frees the second step instead of reporting a position out of range. -/
theorem deleteStep_negative_position_deletes :
    countSteps [stepA, stepB, stepC] = 3 ∧
    deleteStep [stepA, stepB, stepC] (-1) = ([stepA, stepC], .deleted stepB.instruction) := by
  decide

theorem countSteps_eq_length (head : RecipeList) : countSteps head = (head.length : Int) := by
  induction head with
  | nil => rfl
  | cons s next ih => simp only [countSteps, ih, List.length_cons]; omega

/-- Where the `for` loop of `deleteStep` stops: it passes `position - 1 - i` nodes, or all
of them when the chain is shorter. -/
theorem findPrev_eq (position : Int) : ∀ (temp before : RecipeList) (i : Int),
    findPrev before temp i position =
      ((temp.take (position - 1 - i).toNat).reverse ++ before,
        temp.drop (position - 1 - i).toNat) := by
  intro temp
  induction temp with
  | nil => intro before i; simp [findPrev]
  | cons t rest ih =>
    intro before i
    unfold findPrev
    by_cases h : i < position - 1
    · simp only [h, if_true]
      rw [ih]
      have hk : (position - 1 - i).toNat = (position - 1 - (i + 1)).toNat + 1 := by omega
      rw [hk]
      simp
    · simp only [h, if_false]
      have hk : (position - 1 - i).toNat = 0 := by omega
      rw [hk]
      simp

/-- What `deleteStep` does at a position that is not 0, on a non-empty list: with
`k = position - 1` (0 when that is negative), it unlinks the node after node `k` when
there is one and reports a position out of range otherwise. -/
theorem deleteStep_nonzero (head : RecipeList) (position : Int) (hne : head ≠ [])
    (hpos : position ≠ 0) :
    deleteStep head position =
      match head.drop (position - 1).toNat with
      | t :: toDelete :: after =>
          (head.take (position - 1).toNat ++ t :: after, .deleted toDelete.instruction)
      | _ => (head, .positionOutOfRange) := by
  cases head with
  | nil => exact absurd rfl hne
  | cons h rest =>
    simp only [deleteStep, hpos, if_false]
    rw [findPrev_eq]
    simp only [sub_zero, List.append_nil]
    generalize hd : List.drop (position - 1).toNat (h :: rest) = d
    match d with
    | [] => rfl
    | [_] => rfl
    | t :: toDelete :: after => simp

theorem deleteStep_length (head : RecipeList) (position : Int) :
    ((deleteStep head position).1.length : Int) =
      head.length - ((deleteStep head position).2.freed : Int) := by
  cases head with
  | nil => simp [deleteStep, DeleteOutcome.freed]
  | cons h rest =>
    by_cases hpos : position = 0
    · simp [deleteStep, hpos, DeleteOutcome.freed]
    · rw [deleteStep_nonzero (h :: rest) position (by simp) hpos]
      generalize hk : (position - 1).toNat = k
      have hsplit := List.take_append_drop k (h :: rest)
      generalize hd : List.drop k (h :: rest) = d at hsplit ⊢
      match d with
      | [] => simp [DeleteOutcome.freed]
      | [_] => simp [DeleteOutcome.freed]
      | t :: toDelete :: after =>
        simp only [DeleteOutcome.freed]
        have hlen := congrArg List.length hsplit
        simp only [List.length_append, List.length_cons] at hlen ⊢
        omega

/-- C11: on a recipe list of `n >= 1` steps, `deleteStep(p)` with `0 <= p < n` leaves the
former steps `0 .. p-1` followed by the former steps `p+1 .. n-1`, in the same order, and
reports the instruction of the step that was at position `p`; in particular
`deleteStep(0)` on a one-step list leaves the empty list. -/
theorem deleteStep_removes_position (head : RecipeList) (p : Nat) (hp : p < head.length) :
    ((deleteStep head (p : Int)).1 = head.take p ++ head.drop (p + 1) ∧
      ∃ s, head[p]? = some s ∧ (deleteStep head (p : Int)).2 = .deleted s.instruction) ∧
    (∀ s : StepNode, deleteStep [s] 0 = ([], .deleted s.instruction)) := by
  refine ⟨?_, fun s => by simp [deleteStep]⟩
  cases p with
  | zero =>
    cases head with
    | nil => simp at hp
    | cons h rest => simp [deleteStep]
  | succ k =>
    have hne : head ≠ [] := by
      intro h; subst h; simp at hp
    have hpos : ((k + 1 : Nat) : Int) ≠ 0 := by omega
    rw [deleteStep_nonzero head _ hne hpos]
    have hk : (((k + 1 : Nat) : Int) - 1).toNat = k := by omega
    rw [hk]
    have h1 : k < head.length := by omega
    have hd : head.drop k = head[k] :: head[k + 1] :: head.drop (k + 1 + 1) := by
      rw [List.drop_eq_getElem_cons h1, List.drop_eq_getElem_cons hp]
    rw [hd]
    simp only []
    constructor
    · have ht : head.take (k + 1) = head.take k ++ [head[k]] := by
        rw [List.take_succ, List.getElem?_eq_getElem h1]
        rfl
      rw [ht, List.append_assoc]
      rfl
    · exact ⟨head[k + 1], by simp [hp], rfl⟩

/-- C11 at the call `deleteStep(&paneerRecipe, 3)` of `main`, on the eleven-step list. -/
theorem deleteStep_removes_position_paneer :
    3 < (runOps [] (paneerSteps ++
        [.insertAtBeginning 0 "Gather all ingredients and keep ready" "2 mins"])).length ∧
    (((deleteStep (runOps [] (paneerSteps ++
          [.insertAtBeginning 0 "Gather all ingredients and keep ready" "2 mins"]))
        ((3 : Nat) : Int)).1
      = (runOps [] (paneerSteps ++
          [.insertAtBeginning 0 "Gather all ingredients and keep ready" "2 mins"])).take 3 ++
        (runOps [] (paneerSteps ++
          [.insertAtBeginning 0 "Gather all ingredients and keep ready" "2 mins"])).drop (3 + 1) ∧
      ∃ s, (runOps [] (paneerSteps ++
          [.insertAtBeginning 0 "Gather all ingredients and keep ready" "2 mins"]))[3]? = some s ∧
        (deleteStep (runOps [] (paneerSteps ++
          [.insertAtBeginning 0 "Gather all ingredients and keep ready" "2 mins"]))
          ((3 : Nat) : Int)).2 = .deleted s.instruction) ∧
    (∀ s : StepNode, deleteStep [s] 0 = ([], .deleted s.instruction))) :=
  ⟨by decide, deleteStep_removes_position _ 3 (by decide)⟩

theorem insertAtEnd_length (head : RecipeList) (number : Int) (instruction time : String) :
    (insertAtEnd head number instruction time).length = head.length + 1 := by
  induction head with
  | nil => rfl
  | cons s next ih => simp [insertAtEnd, ih]

theorem insertAfter_length (head : RecipeList) (k : Nat) (number : Int)
    (instruction time : String) (hk : k < head.length) :
    (insertAfter head (some k) number instruction time).length = head.length + 1 := by
  simp only [insertAfter, hk, if_true, List.length_append, List.length_cons, List.length_take,
    List.length_drop]
  omega

theorem runOps_count (ops : List RecipeOp) : ∀ head : RecipeList, PointersInList head ops →
    countSteps (runOps head ops) =
      countSteps head + (insertCalls ops : Int) - (removals head ops : Int) := by
  induction ops with
  | nil => intro head _; simp [runOps, insertCalls, removals]
  | cons op ops ih =>
    intro head hvalid
    cases op with
    | insertAtBeginning number instruction time =>
      have := ih (applyOp head (.insertAtBeginning number instruction time)) hvalid
      simp only [runOps, List.foldl_cons, insertCalls, removals] at this ⊢
      rw [this, countSteps_eq_length, countSteps_eq_length]
      simp only [applyOp, insertAtBeginning, List.length_cons]
      push_cast
      omega
    | insertAtEnd number instruction time =>
      have := ih (applyOp head (.insertAtEnd number instruction time)) hvalid
      simp only [runOps, List.foldl_cons, insertCalls, removals] at this ⊢
      rw [this, countSteps_eq_length, countSteps_eq_length]
      simp only [applyOp, insertAtEnd_length]
      push_cast
      omega
    | insertAfter prevStep number instruction time =>
      have := ih (applyOp head (.insertAfter prevStep number instruction time)) hvalid.2
      simp only [runOps, List.foldl_cons, insertCalls, removals] at this ⊢
      rw [this, countSteps_eq_length, countSteps_eq_length]
      simp only [applyOp, insertAfter_length head prevStep number instruction time hvalid.1]
      push_cast
      omega
    | deleteStep position =>
      have := ih (applyOp head (.deleteStep position)) hvalid
      simp only [runOps, List.foldl_cons, insertCalls, removals] at this ⊢
      simp only [applyOp] at this ⊢
      rw [this, countSteps_eq_length, countSteps_eq_length, deleteStep_length]
      push_cast
      omega

/-- C12: for every sequence of `insertAtBeginning`, `insertAtEnd`, `insertAfter` (each
given a step of the list) and `deleteStep` calls starting from the empty list,
`countSteps` equals the number of insert calls minus the number of `deleteStep` calls that
freed a step. -/
theorem countSteps_inserts_minus_removals (ops : List RecipeOp)
    (hptr : PointersInList [] ops) :
    countSteps (runOps [] ops) = (insertCalls ops : Int) - (removals [] ops : Int) := by
  have := runOps_count ops [] hptr
  simpa [countSteps] using this

/-- C12 on the paneer recipe of `main`: ten `insertAtEnd`, one `insertAtBeginning`, then
`deleteStep(3)`; eleven insert calls, one removal, count 10. -/
theorem countSteps_inserts_minus_removals_paneer :
    (PointersInList [] paneerEdits ∧ insertCalls paneerEdits = 11 ∧
      removals [] paneerEdits = 1 ∧ countSteps (runOps [] paneerEdits) = 10) ∧
    countSteps (runOps [] paneerEdits)
      = (insertCalls paneerEdits : Int) - (removals [] paneerEdits : Int) :=
  ⟨⟨by simp [paneerEdits, paneerSteps, PointersInList], by decide, by decide, by decide⟩,
   countSteps_inserts_minus_removals paneerEdits
    (by simp [paneerEdits, paneerSteps, PointersInList])⟩

theorem searchLoop_some (keyword : String) : ∀ (temp : RecipeList) (start position : Int)
    (s : StepNode),
    searchLoop temp keyword start = some (position, s) ↔
      ∃ k : Nat, position = start + k ∧ temp[k]? = some s ∧
        strstr s.instruction keyword = true ∧
        ∀ (j : Nat) (t : StepNode), j < k → temp[j]? = some t →
          strstr t.instruction keyword = false := by
  intro temp
  induction temp with
  | nil =>
    intro start position s
    simp [searchLoop]
  | cons a next ih =>
    intro start position s
    unfold searchLoop
    by_cases ha : strstr a.instruction keyword = true
    · simp only [ha, if_true, Option.some.injEq, Prod.mk.injEq]
      constructor
      · rintro ⟨rfl, rfl⟩
        exact ⟨0, by simp, by simp, ha, fun j t hj => by omega⟩
      · rintro ⟨k, hk, hget, _, hfirst⟩
        cases k with
        | zero =>
          simp only [List.getElem?_cons_zero, Option.some.injEq] at hget
          exact ⟨by simp [hk], hget⟩
        | succ k =>
          have := hfirst 0 a (by omega) (by simp)
          rw [ha] at this
          exact absurd this (by simp)
    · have ha2 : strstr a.instruction keyword = false := by simpa using ha
      simp only [ha2, Bool.false_eq_true, if_false]
      rw [ih]
      constructor
      · rintro ⟨k, hk, hget, hs, hfirst⟩
        refine ⟨k + 1, by push_cast; omega, by simpa using hget, hs, ?_⟩
        intro j t hj hjt
        cases j with
        | zero =>
          simp only [List.getElem?_cons_zero, Option.some.injEq] at hjt
          rw [← hjt]; exact ha2
        | succ j =>
          exact hfirst j t (by omega) (by simpa using hjt)
      · rintro ⟨k, hk, hget, hs, hfirst⟩
        cases k with
        | zero =>
          simp only [List.getElem?_cons_zero, Option.some.injEq] at hget
          rw [← hget, ha2] at hs
          exact absurd hs (by simp)
        | succ k =>
          refine ⟨k, by push_cast at hk; omega, by simpa using hget, hs, ?_⟩
          intro j t hj hjt
          exact hfirst (j + 1) t (by omega) (by simpa using hjt)

theorem searchLoop_none (keyword : String) : ∀ (temp : RecipeList) (start : Int),
    searchLoop temp keyword start = none ↔
      ∀ s ∈ temp, strstr s.instruction keyword = false := by
  intro temp
  induction temp with
  | nil => intro start; simp [searchLoop]
  | cons a next ih =>
    intro start
    unfold searchLoop
    by_cases ha : strstr a.instruction keyword = true
    · simp [ha]
    · have ha2 : strstr a.instruction keyword = false := by simpa using ha
      simp [ha2, ih]

/-- C18: `searchStep` returns the first step in list order whose instruction contains the
keyword as a run of bytes (compared byte for byte, so case sensitive), together with its
position counted from 1, and returns NULL exactly when no instruction contains the
keyword; in `main`, "tomatoes" is found in step 5 of the paneer recipe and "salt" is not
found. -/
theorem searchStep_first_match :
    (∀ (head : RecipeList) (keyword : String),
      (∀ (position : Int) (s : StepNode),
        searchStep head keyword = some (position, s) ↔
          ∃ k : Nat, position = (k : Int) + 1 ∧ head[k]? = some s ∧
            cbytes keyword <:+: cbytes s.instruction ∧
            ∀ (j : Nat) (t : StepNode), j < k → head[j]? = some t →
              ¬ (cbytes keyword <:+: cbytes t.instruction)) ∧
      (searchStep head keyword = none ↔
        ∀ s ∈ head, ¬ (cbytes keyword <:+: cbytes s.instruction))) ∧
    searchStep (runOps [] paneerSteps) "tomatoes"
      = some (5, ⟨5, "Add chopped tomatoes and cook until soft", "4 mins"⟩) ∧
    searchStep (runOps [] paneerSteps) "salt" = none := by
  refine ⟨?_, by decide, by decide⟩
  intro head keyword
  constructor
  · intro position s
    rw [searchStep, searchLoop_some]
    simp only [strstr, decide_eq_true_eq, decide_eq_false_iff_not]
    constructor
    · rintro ⟨k, hk, h⟩
      exact ⟨k, by omega, h⟩
    · rintro ⟨k, hk, h⟩
      exact ⟨k, by omega, h⟩
  · rw [searchStep, searchLoop_none]
    simp only [strstr, decide_eq_false_iff_not]

/-- C27: for every recipe list of `n` steps, after `reverseRecipe` the list has `n` steps
and, for every `0 <= i < n`, the step at position `i` is the step that was at position
`n-1-i` before the call. -/
theorem reverseRecipe_positions (head : RecipeList) (i : Nat) (hi : i < head.length) :
    (reverseRecipe head).length = head.length ∧
    ∃ s, (reverseRecipe head)[i]? = some s ∧ head[head.length - 1 - i]? = some s := by
  have hrev : reverseRecipe head = head.reverse := by
    simp [reverseRecipe, reverseLoop_eq]
  rw [hrev]
  refine ⟨List.length_reverse head, head[head.length - 1 - i], ?_, ?_⟩
  · rw [List.getElem?_reverse hi]
    exact List.getElem?_eq_getElem (by omega)
  · exact List.getElem?_eq_getElem (by omega)

/-- C27 on the ten-step paneer recipe of `main`, at position 2: the step there after the
reversal is the former step 7. -/
theorem reverseRecipe_positions_paneer :
    (2 < (runOps [] paneerSteps).length ∧
      (reverseRecipe (runOps [] paneerSteps))[2]?
        = some ⟨8, "Cook for 3-4 minutes stirring occasionally", "4 mins"⟩) ∧
    ((reverseRecipe (runOps [] paneerSteps)).length = (runOps [] paneerSteps).length ∧
      ∃ s, (reverseRecipe (runOps [] paneerSteps))[2]? = some s ∧
        (runOps [] paneerSteps)[(runOps [] paneerSteps).length - 1 - 2]? = some s) :=
  ⟨⟨by decide, by decide⟩, reverseRecipe_positions (runOps [] paneerSteps) 2 (by decide)⟩

end Recipe
end NutriPlan

namespace NutriPlan
namespace PQ

/-! ### The recursion bounds of `heapifyUp` and `heapifyDown` never cut a run short -/

theorem heapifyUpAux_zero (fuel : Nat) (h : Nat → Meal) : heapifyUpAux fuel h 0 = h := by
  cases fuel <;> simp [heapifyUpAux]

theorem heapifyUpAux_fuel (fuel1 : Nat) : ∀ (fuel2 : Nat) (h : Nat → Meal) (i : Nat),
    i ≤ fuel1 → i ≤ fuel2 → heapifyUpAux fuel1 h i = heapifyUpAux fuel2 h i := by
  induction fuel1 with
  | zero =>
    intro fuel2 h i h1 _
    have hi : i = 0 := by omega
    subst hi
    rw [heapifyUpAux_zero, heapifyUpAux_zero]
  | succ k ih =>
    intro fuel2 h i h1 h2
    by_cases hi : i = 0
    · subst hi
      rw [heapifyUpAux_zero, heapifyUpAux_zero]
    · obtain ⟨m, rfl⟩ : ∃ m, fuel2 = m + 1 := ⟨fuel2 - 1, by omega⟩
      simp only [heapifyUpAux, hi, if_false]
      split
      · exact ih m _ _ (by omega) (by omega)
      · rfl

/-- The body of `heapifyUp` as written in priority_queue.c. -/
theorem heapifyUp_unfold (pq : PriorityQueue) (index : Nat) :
    heapifyUp pq index =
      if index = 0 then pq
      else if (pq.heap index).score > (pq.heap ((index - 1) / 2)).score then
        heapifyUp { pq with heap := swap pq.heap index ((index - 1) / 2) } ((index - 1) / 2)
      else pq := by
  by_cases hi : index = 0
  · subst hi
    simp [heapifyUp, heapifyUpAux_zero]
  · obtain ⟨m, rfl⟩ : ∃ m, index = m + 1 := ⟨index - 1, by omega⟩
    simp only [heapifyUp, hi, if_false]
    rw [heapifyUpAux]
    simp only [hi, if_false]
    split
    · rw [heapifyUpAux_fuel m ((m + 1 - 1) / 2) _ _ (by omega) (le_refl _)]
    · rfl

theorem heapifyDownAux_fuel (fuel1 : Nat) : ∀ (fuel2 : Nat) (h : Nat → Meal) (n i : Nat),
    n - i ≤ fuel1 → n - i ≤ fuel2 →
    heapifyDownAux fuel1 h n i = heapifyDownAux fuel2 h n i := by
  have hstop : ∀ (fuel : Nat) (h : Nat → Meal) (n i : Nat), n ≤ i →
      heapifyDownAux fuel h n i = h := by
    intro fuel h n i hni
    cases fuel with
    | zero => rfl
    | succ fuel =>
      have e1 : ¬ (2 * i + 1 < n) := by omega
      have e2 : ¬ (2 * i + 2 < n) := by omega
      simp [heapifyDownAux, e1, e2]
  induction fuel1 with
  | zero =>
    intro fuel2 h n i h1 _
    rw [hstop 0 h n i (by omega), hstop fuel2 h n i (by omega)]
  | succ k ih =>
    intro fuel2 h n i h1 h2
    by_cases hni : n ≤ i
    · rw [hstop _ h n i hni, hstop _ h n i hni]
    · obtain ⟨m, rfl⟩ : ∃ m, fuel2 = m + 1 := ⟨fuel2 - 1, by omega⟩
      simp only [heapifyDownAux]
      generalize hL1 : (if 2 * i + 1 < n ∧ (h (2 * i + 1)).score > (h i).score then 2 * i + 1 else i) = L1
      generalize hL2 : (if 2 * i + 2 < n ∧ (h (2 * i + 2)).score > (h L1).score then 2 * i + 2 else L1) = L2
      by_cases hLi : L2 = i
      · simp only [hLi, ne_eq, not_true_eq_false, if_false]
      · simp only [ne_eq, hLi, not_false_eq_true, if_true]
        have hb : i < L2 := by
          rw [← hL2, ← hL1] at hLi ⊢
          split_ifs at hLi ⊢ <;> omega
        exact ih m _ n L2 (by omega) (by omega)

/-- The body of `heapifyDown` as written in priority_queue.c. -/
theorem heapifyDown_unfold (pq : PriorityQueue) (index : Nat) :
    heapifyDown pq index =
      (let largest := index
       let left := 2 * index + 1
       let right := 2 * index + 2
       let largest :=
         if left < pq.size ∧ (pq.heap left).score > (pq.heap largest).score then left else largest
       let largest :=
         if right < pq.size ∧ (pq.heap right).score > (pq.heap largest).score then right
         else largest
       if largest ≠ index then
         heapifyDown { pq with heap := swap pq.heap index largest } largest
       else pq) := by
  simp only [heapifyDown]
  generalize hL1 : (if 2 * index + 1 < pq.size ∧ (pq.heap (2 * index + 1)).score > (pq.heap index).score
    then 2 * index + 1 else index) = L1
  generalize hL2 : (if 2 * index + 2 < pq.size ∧ (pq.heap (2 * index + 2)).score > (pq.heap L1).score
    then 2 * index + 2 else L1) = L2
  rw [heapifyDownAux_fuel (pq.size - index) (pq.size - index + 1) pq.heap pq.size index
    (le_refl _) (by omega)]
  rw [heapifyDownAux]
  simp only [hL1, hL2]
  by_cases hLi : L2 = index
  · simp only [hLi, ne_eq, not_true_eq_false, if_false]
  · simp only [ne_eq, hLi, not_false_eq_true, if_true]
    have hb : index < L2 ∧ L2 < pq.size := by
      rw [← hL2, ← hL1] at hLi ⊢
      split_ifs at hLi ⊢ <;> omega
    rw [heapifyDownAux_fuel (pq.size - index) (pq.size - L2) _ pq.size L2 (by omega) (le_refl _)]

theorem heapifyUpAux_isHeap (fuel : Nat) : ∀ (h : Nat → Meal) (n i : Nat), i ≤ fuel → i < n →
    (∀ j, 0 < j → j < n → j ≠ i → (h j).score ≤ (h ((j - 1) / 2)).score) →
    (∀ j, 0 < j → j < n → (j - 1) / 2 = i → 0 < i → (h j).score ≤ (h ((i - 1) / 2)).score) →
    IsHeap (heapifyUpAux fuel h i) n := by
  induction fuel with
  | zero =>
    intro h n i hf _ ha _
    have hi0 : i = 0 := by omega
    subst hi0
    intro j hj hjn
    exact ha j hj hjn (by omega)
  | succ fuel ih =>
    intro h n i hf hin ha hb
    unfold heapifyUpAux
    by_cases hi0 : i = 0
    · subst hi0
      simp only [if_true]
      intro j hj hjn
      exact ha j hj hjn (by omega)
    · simp only [hi0, if_false]
      by_cases hgt : (h i).score > (h ((i - 1) / 2)).score
      · simp only [hgt, if_true]
        apply ih
        · omega
        · omega
        · intro j hj hjn hjp
          simp only [swap]
          by_cases hji : j = i
          · subst hji
            simp only [if_true]
            have : ¬ ((j - 1) / 2 = j) := by omega
            simp only [this, if_false, if_true]
            omega
          · simp only [hji, hjp, if_false]
            by_cases hpi : (j - 1) / 2 = i
            · simp only [hpi, if_true]
              exact hb j hj hjn hpi (by omega)
            · simp only [hpi, if_false]
              by_cases hpp : (j - 1) / 2 = (i - 1) / 2
              · simp only [hpp, if_true]
                have := ha j hj hjn hji
                rw [hpp] at this
                omega
              · simp only [hpp, if_false]
                exact ha j hj hjn hji
        · intro j hj hjn hjp hp0
          simp only [swap]
          have h1 : ¬ (((i - 1) / 2 - 1) / 2 = i) := by omega
          have h2 : ¬ (((i - 1) / 2 - 1) / 2 = (i - 1) / 2) := by omega
          simp only [h1, h2, if_false]
          have hpar := ha ((i - 1) / 2) hp0 (by omega) (by omega)
          by_cases hji : j = i
          · subst hji
            simp only [if_true]
            exact hpar
          · have hjp2 : ¬ (j = (i - 1) / 2) := by omega
            simp only [hji, hjp2, if_false]
            have := ha j hj hjn hji
            rw [hjp] at this
            omega
      · simp only [hgt, if_false]
        intro j hj hjn
        by_cases hji : j = i
        · subst hji; omega
        · exact ha j hj hjn hji

theorem heapifyDownAux_isHeap (fuel : Nat) : ∀ (h : Nat → Meal) (n i : Nat), n - i ≤ fuel →
    (∀ j, 0 < j → j < n → (j - 1) / 2 ≠ i → (h j).score ≤ (h ((j - 1) / 2)).score) →
    (∀ j, 0 < j → j < n → (j - 1) / 2 = i → 0 < i → (h j).score ≤ (h ((i - 1) / 2)).score) →
    IsHeap (heapifyDownAux fuel h n i) n := by
  induction fuel with
  | zero =>
    intro h n i hf ha _ j hj hjn
    exact ha j hj hjn (by omega)
  | succ fuel ih =>
    intro h n i hf ha hb
    unfold heapifyDownAux
    simp only []
    generalize hL1 : (if 2 * i + 1 < n ∧ (h (2 * i + 1)).score > (h i).score then 2 * i + 1 else i) = L1
    generalize hL2 : (if 2 * i + 2 < n ∧ (h (2 * i + 2)).score > (h L1).score then 2 * i + 2 else L1) = L2
    have hL1c : (L1 = i ∧ (2 * i + 1 < n → (h (2 * i + 1)).score ≤ (h i).score)) ∨
        (L1 = 2 * i + 1 ∧ 2 * i + 1 < n ∧ (h (2 * i + 1)).score > (h i).score) := by
      rw [← hL1]; split
      · right; rename_i hc; exact ⟨rfl, hc.1, hc.2⟩
      · left; rename_i hc; exact ⟨rfl, fun hlt => by
          by_contra hcon; exact hc ⟨hlt, by omega⟩⟩
    have hL2c : (L2 = L1 ∧ (2 * i + 2 < n → (h (2 * i + 2)).score ≤ (h L1).score)) ∨
        (L2 = 2 * i + 2 ∧ 2 * i + 2 < n ∧ (h (2 * i + 2)).score > (h L1).score) := by
      rw [← hL2]; split
      · right; rename_i hc; exact ⟨rfl, hc.1, hc.2⟩
      · left; rename_i hc; exact ⟨rfl, fun hlt => by
          by_contra hcon; exact hc ⟨hlt, by omega⟩⟩
    by_cases hLi : L2 = i
    · simp only [hLi, ne_eq, not_true_eq_false, if_false]
      intro j hj hjn
      by_cases hp : (j - 1) / 2 = i
      · rw [hp]
        have hL1i : L1 = i := by
          rcases hL2c with ⟨h2, _⟩ | ⟨h2, _⟩
          · rw [← h2]; exact hLi
          · omega
        have hjc : j = 2 * i + 1 ∨ j = 2 * i + 2 := by omega
        rcases hjc with rfl | rfl
        · rcases hL1c with ⟨_, h1⟩ | ⟨h1, _⟩
          · exact h1 hjn
          · omega
        · rcases hL2c with ⟨_, h2⟩ | ⟨h2, _⟩
          · rw [hL1i] at h2; exact h2 hjn
          · omega
      · exact ha j hj hjn hp
    · simp only [ne_eq, hLi, not_false_eq_true, if_true]
      -- facts about the chosen child
      have hLn : L2 < n := by
        rcases hL2c with ⟨h2, _⟩ | ⟨h2, h2n, _⟩
        · rcases hL1c with ⟨h1, _⟩ | ⟨h1, h1n, _⟩
          · omega
          · omega
        · omega
      have hLchild : L2 = 2 * i + 1 ∨ L2 = 2 * i + 2 := by
        rcases hL2c with ⟨h2, _⟩ | ⟨h2, _⟩
        · rcases hL1c with ⟨h1, _⟩ | ⟨h1, _⟩
          · omega
          · omega
        · omega
      have hLgt : (h L2).score > (h i).score := by
        rcases hL2c with ⟨h2, _⟩ | ⟨h2, _, h2g⟩
        · rcases hL1c with ⟨h1, _⟩ | ⟨h1, _, h1g⟩
          · omega
          · rw [h2, h1]; exact h1g
        · rcases hL1c with ⟨h1, _⟩ | ⟨h1, _, h1g⟩
          · rw [h1] at h2g; rw [h2]; exact h2g
          · rw [h1] at h2g; rw [h2]; omega
      have hLmax : ∀ j, j < n → (j - 1) / 2 = i → 0 < j → (h j).score ≤ (h L2).score := by
        intro j hjn hp hj
        have hjc : j = 2 * i + 1 ∨ j = 2 * i + 2 := by omega
        rcases hjc with rfl | rfl
        · rcases hL2c with ⟨h2, _⟩ | ⟨h2, _, h2g⟩
          · rcases hL1c with ⟨h1, h1le⟩ | ⟨h1, _, _⟩
            · omega
            · rw [h2, h1]
          · rcases hL1c with ⟨h1, h1le⟩ | ⟨h1, _, _⟩
            · rw [h1] at h2g; rw [h2]; have := h1le hjn; omega
            · rw [h1] at h2g; rw [h2]; omega
        · rcases hL2c with ⟨h2, h2le⟩ | ⟨h2, _, _⟩
          · rw [h2]; exact h2le hjn
          · rw [h2]
      apply ih
      · omega
      · intro j hj hjn hjp
        simp only [swap]
        by_cases hjL : j = L2
        · subst hjL
          have e1 : ¬ (j = i) := hLi
          have e2 : (j - 1) / 2 = i := by omega
          simp only [e1, e2, if_false, if_true]
          omega
        · by_cases hji : j = i
          · subst hji
            have e1 : ¬ ((j - 1) / 2 = j) := by omega
            have e2 : ¬ ((j - 1) / 2 = L2) := by omega
            simp only [e1, e2, if_false, if_true]
            exact hb L2 (by omega) hLn (by omega) hj
          · simp only [hji, hjL, hjp, if_false]
            by_cases hp : (j - 1) / 2 = i
            · simp only [hp, if_true]
              exact hLmax j hjn hp hj
            · simp only [hp, if_false]
              exact ha j hj hjn hp
      · intro j hj hjn hjp hL0
        simp only [swap]
        have e1 : ¬ (j = i) := by omega
        have e2 : ¬ (j = L2) := by omega
        have e3 : (L2 - 1) / 2 = i := by omega
        simp only [e1, e2, e3, if_false, if_true]
        have := ha j hj hjn (by omega)
        rw [hjp] at this
        exact this

theorem swap_eq_comp (h : Nat → Meal) (a b : Nat) : swap h a b = h ∘ (Equiv.swap a b) := by
  funext k
  simp only [swap, Function.comp, Equiv.swap_apply_def]
  split_ifs <;> rfl

theorem range_map_swap_perm (n a b : Nat) (ha : a < n) (hb : b < n) :
    ((List.range n).map (Equiv.swap a b)).Perm (List.range n) := by
  apply (List.perm_ext_iff_of_nodup ?_ (List.nodup_range n)).2
  · intro k
    simp only [List.mem_map, List.mem_range]
    constructor
    · rintro ⟨x, hx, rfl⟩
      rw [Equiv.swap_apply_def]
      split_ifs <;> omega
    · intro hk
      refine ⟨Equiv.swap a b k, ?_, by simp⟩
      rw [Equiv.swap_apply_def]
      split_ifs <;> omega
  · exact (List.nodup_range n).map (Equiv.swap a b).injective

theorem map_swap_perm (h : Nat → Meal) (n a b : Nat) (ha : a < n) (hb : b < n) :
    ((List.range n).map (swap h a b)).Perm ((List.range n).map h) := by
  rw [swap_eq_comp, ← List.map_map]
  exact (range_map_swap_perm n a b ha hb).map h

theorem heapifyUpAux_perm (fuel : Nat) : ∀ (h : Nat → Meal) (n i : Nat), i < n →
    ((List.range n).map (heapifyUpAux fuel h i)).Perm ((List.range n).map h) := by
  induction fuel with
  | zero => intro h n i _; exact List.Perm.refl _
  | succ fuel ih =>
    intro h n i hin
    unfold heapifyUpAux
    by_cases hi0 : i = 0
    · simp only [hi0, if_true]; exact List.Perm.refl _
    · simp only [hi0, if_false]
      split
      · exact (ih _ n _ (by omega)).trans (map_swap_perm h n i _ hin (by omega))
      · exact List.Perm.refl _

theorem heapifyDownAux_perm (fuel : Nat) : ∀ (h : Nat → Meal) (n i : Nat),
    ((List.range n).map (heapifyDownAux fuel h n i)).Perm ((List.range n).map h) := by
  induction fuel with
  | zero => intro h n i; exact List.Perm.refl _
  | succ fuel ih =>
    intro h n i
    unfold heapifyDownAux
    simp only []
    generalize hL1 : (if 2 * i + 1 < n ∧ (h (2 * i + 1)).score > (h i).score then 2 * i + 1 else i) = L1
    generalize hL2 : (if 2 * i + 2 < n ∧ (h (2 * i + 2)).score > (h L1).score then 2 * i + 2 else L1) = L2
    by_cases hLi : L2 = i
    · simp only [hLi, ne_eq, not_true_eq_false, if_false]
      exact List.Perm.refl _
    · simp only [ne_eq, hLi, not_false_eq_true, if_true]
      have hb : L2 < n ∧ i < n := by
        rw [← hL2, ← hL1] at hLi ⊢
        split_ifs at hLi ⊢ <;> omega
      exact (ih _ n _).trans (map_swap_perm h n i _ hb.2 hb.1)

theorem isHeap_root_max (h : Nat → Meal) (n : Nat) (hh : IsHeap h n) :
    ∀ j, j < n → (h j).score ≤ (h 0).score := by
  intro j
  induction j using Nat.strong_induction_on with
  | _ j ih =>
    intro hjn
    by_cases hj : j = 0
    · subst hj; exact le_refl _
    · have h1 := hh j (by omega) hjn
      have h2 := ih ((j - 1) / 2) (by omega) (by omega)
      omega

theorem insertOne_full (pq : PriorityQueue) (m : Meal) (hfull : pq.size ≥ MAX_SIZE) :
    insertOne pq m = pq := by
  simp [insertOne, insertMeal, hfull]

theorem insertOne_size (pq : PriorityQueue) (m : Meal) (hroom : pq.size < MAX_SIZE) :
    (insertOne pq m).size = pq.size + 1 := by
  have : ¬ (pq.size ≥ MAX_SIZE) := by omega
  simp [insertOne, insertMeal, this, heapifyUp]

theorem insertOne_contents (pq : PriorityQueue) (m : Meal) (hroom : pq.size < MAX_SIZE) :
    (contents (insertOne pq m)).Perm (contents pq ++ [m]) := by
  have hn : ¬ (pq.size ≥ MAX_SIZE) := by omega
  simp only [insertOne, insertMeal, hn, if_false, heapifyUp, contents]
  refine (heapifyUpAux_perm _ _ (pq.size + 1) pq.size (by omega)).trans ?_
  rw [List.range_succ, List.map_append]
  simp only [List.map_cons, List.map_nil, Function.update_same]
  apply List.Perm.append_right
  apply List.Perm.of_eq
  apply List.map_congr_left
  intro k hk
  have : k ≠ pq.size := by
    have := List.mem_range.1 hk
    omega
  simp [Function.update_noteq this]

theorem insertOne_isHeap (pq : PriorityQueue) (m : Meal) (hh : IsHeap pq.heap pq.size) :
    IsHeap (insertOne pq m).heap (insertOne pq m).size := by
  by_cases hfull : pq.size ≥ MAX_SIZE
  · rw [insertOne_full pq m hfull]; exact hh
  · simp only [insertOne, insertMeal, hfull, if_false, heapifyUp]
    apply heapifyUpAux_isHeap
    · exact le_refl _
    · omega
    · intro j hj hjn hne
      have h1 : j ≠ pq.size := hne
      have h2 : (j - 1) / 2 ≠ pq.size := by omega
      rw [Function.update_noteq h1, Function.update_noteq h2]
      exact hh j hj (by omega)
    · intro j hj hjn hp _
      omega

theorem insertAll_isHeap (ms : List Meal) : ∀ (pq : PriorityQueue), IsHeap pq.heap pq.size →
    IsHeap (insertAll pq ms).heap (insertAll pq ms).size := by
  induction ms with
  | nil => intro pq h; exact h
  | cons m ms ih => intro pq h; exact ih _ (insertOne_isHeap pq m h)

theorem initPQ_isHeap (pq : PriorityQueue) : IsHeap (initPQ pq).heap (initPQ pq).size := by
  intro i _ hi
  simp [initPQ] at hi

theorem extractMax_size (pq : PriorityQueue) (hpos : 0 < pq.size) :
    (extractMax pq).2.size = pq.size - 1 := by
  have : pq.size ≠ 0 := by omega
  simp [extractMax, this, heapifyDown]

theorem extractMax_fst (pq : PriorityQueue) (hpos : 0 < pq.size) :
    (extractMax pq).1 = pq.heap 0 := by
  have : pq.size ≠ 0 := by omega
  simp [extractMax, this]

theorem extractMax_contents (pq : PriorityQueue) (hpos : 0 < pq.size) :
    ((extractMax pq).1 :: contents (extractMax pq).2).Perm (contents pq) := by
  have hne : pq.size ≠ 0 := by omega
  simp only [extractMax, hne, if_false, heapifyDown, contents]
  refine (List.Perm.cons _ (heapifyDownAux_perm _ _ (pq.size - 1) 0)).trans ?_
  obtain ⟨n, hn⟩ : ∃ n, pq.size = n + 1 := ⟨pq.size - 1, by omega⟩
  rw [hn]
  simp only [Nat.add_sub_cancel]
  cases n with
  | zero => simp [List.range_succ]
  | succ n =>
    -- slots 0 .. n+1: the last one has moved to slot 0
    rw [List.range_succ (n := n + 1), List.map_append, List.range_succ_eq_map]
    simp only [List.map_cons, List.map_nil, Function.update_same, List.cons_append]
    have hmid : (List.map (Function.update pq.heap 0 (pq.heap (n + 1))) (List.map Nat.succ (List.range n)))
        = List.map pq.heap (List.map Nat.succ (List.range n)) := by
      rw [List.map_map, List.map_map]
      apply List.map_congr_left
      intro k _
      simp [Function.comp, Function.update_noteq]
    rw [hmid]
    generalize List.map pq.heap (List.map Nat.succ (List.range n)) = mid
    exact List.Perm.cons _ (List.perm_append_singleton _ _).symm

theorem extractMax_isHeap (pq : PriorityQueue) (hh : IsHeap pq.heap pq.size) :
    IsHeap (extractMax pq).2.heap (extractMax pq).2.size := by
  by_cases hne : pq.size = 0
  · simp only [extractMax, hne, if_true]
    intro i _ hi
    omega
  · simp only [extractMax, hne, if_false, heapifyDown]
    apply heapifyDownAux_isHeap
    · omega
    · intro j hj hjn hp
      have h1 : j ≠ 0 := by omega
      rw [Function.update_noteq h1, Function.update_noteq hp]
      exact hh j hj (by omega)
    · intro j _ _ _ h0
      omega

theorem extractMax_is_max (pq : PriorityQueue) (hh : IsHeap pq.heap pq.size) (hpos : 0 < pq.size) :
    ∀ x ∈ contents pq, x.score ≤ (extractMax pq).1.score := by
  intro x hx
  rw [extractMax_fst pq hpos]
  simp only [contents, List.mem_map, List.mem_range] at hx
  obtain ⟨j, hj, rfl⟩ := hx
  exact isHeap_root_max pq.heap pq.size hh j hj

/-- Everything the top-K loop guarantees on a queue whose live slots are heap ordered. -/
theorem topK_spec (k : Nat) : ∀ (pq : PriorityQueue), IsHeap pq.heap pq.size →
    (topK k pq).1.length = min k pq.size ∧
    (topK k pq).2.size = pq.size - k ∧
    IsHeap (topK k pq).2.heap (topK k pq).2.size ∧
    ((topK k pq).1 ++ contents (topK k pq).2).Perm (contents pq) ∧
    ((topK k pq).1.map Meal.score).Sorted (· ≥ ·) ∧
    (∀ x ∈ (topK k pq).1, ∀ y ∈ contents (topK k pq).2, y.score ≤ x.score) := by
  induction k with
  | zero =>
    intro pq hh
    simp [topK, hh]
  | succ k ih =>
    intro pq hh
    unfold topK
    by_cases hpos : pq.size > 0
    · simp only [hpos, if_true]
      have hh1 := extractMax_isHeap pq hh
      obtain ⟨hlen, hsz, hheap, hperm, hsorted, hsep⟩ := ih (extractMax pq).2 hh1
      have hsize := extractMax_size pq hpos
      have hcont := extractMax_contents pq hpos
      have hmax := extractMax_is_max pq hh hpos
      have hsub : ∀ y, y ∈ (topK k (extractMax pq).2).1 ∨ y ∈ contents (topK k (extractMax pq).2).2 →
          y ∈ contents pq := by
        intro y hy
        have : y ∈ (topK k (extractMax pq).2).1 ++ contents (topK k (extractMax pq).2).2 :=
          List.mem_append.2 hy
        have := (hperm.mem_iff).1 this
        exact (hcont.mem_iff).1 (List.mem_cons_of_mem _ this)
      refine ⟨?_, ?_, hheap, ?_, ?_, ?_⟩
      · simp only [List.length_cons, hlen, hsize]; omega
      · rw [hsz, hsize]; omega
      · simp only [List.cons_append]
        exact (List.Perm.cons _ hperm).trans hcont
      · simp only [List.map_cons]
        refine List.sorted_cons.2 ⟨?_, hsorted⟩
        intro b hb
        obtain ⟨y, hy, rfl⟩ := List.mem_map.1 hb
        exact hmax y (hsub y (Or.inl hy))
      · intro x hx y hy
        rcases List.mem_cons.1 hx with rfl | hx
        · exact hmax y (hsub y (Or.inr hy))
        · exact hsep x hx y hy
    · simp only [hpos, if_false]
      have h0 : pq.size = 0 := by omega
      refine ⟨by simp [h0], by omega, hh, by simp, by simp, by simp⟩

theorem insertAll_append (pq : PriorityQueue) (ms : List Meal) (m : Meal) :
    insertAll pq (ms ++ [m]) = insertOne (insertAll pq ms) m := by
  simp [insertAll, List.foldl_append]

theorem insertAll_size (ms : List Meal) : ∀ (pq : PriorityQueue), pq.size + ms.length ≤ MAX_SIZE →
    (insertAll pq ms).size = pq.size + ms.length := by
  induction ms with
  | nil => intro pq _; rfl
  | cons m ms ih =>
    intro pq h
    simp only [List.length_cons] at h
    have h1 := insertOne_size pq m (by omega)
    have h2 := ih (insertOne pq m) (by omega)
    simp only [insertAll, List.foldl_cons, List.length_cons] at h2 ⊢
    omega

theorem insertAll_contents (ms : List Meal) : ∀ (pq : PriorityQueue),
    pq.size + ms.length ≤ MAX_SIZE → (contents (insertAll pq ms)).Perm (contents pq ++ ms) := by
  induction ms with
  | nil => intro pq _; simp [insertAll]
  | cons m ms ih =>
    intro pq h
    simp only [List.length_cons] at h
    have h1 := insertOne_size pq m (by omega)
    have h2 := ih (insertOne pq m) (by omega)
    have h3 := insertOne_contents pq m (by omega)
    simp only [insertAll, List.foldl_cons] at h2 ⊢
    refine h2.trans ?_
    refine (List.Perm.append_right ms h3).trans ?_
    simp

theorem heapifyUpAux_root (fuel : Nat) : ∀ (h : Nat → Meal) (i : Nat), i ≤ fuel → 0 < i →
    (∀ j, j < i → (h j).score ≤ (h 0).score) →
    heapifyUpAux fuel h i 0 = if (h i).score > (h 0).score then h i else h 0 := by
  induction fuel with
  | zero => intro h i hf hi; omega
  | succ fuel ih =>
    intro h i hf hi hle
    unfold heapifyUpAux
    have hi0 : i ≠ 0 := by omega
    simp only [hi0, if_false]
    by_cases hgt : (h i).score > (h ((i - 1) / 2)).score
    · simp only [hgt, if_true]
      by_cases hp : (i - 1) / 2 = 0
      · rw [hp, heapifyUpAux_zero]
        rw [hp] at hgt
        have : (0 : Nat) ≠ i := by omega
        simp [swap, hgt, this]
      · rw [ih _ _ (by omega) (by omega)]
        · have e1 : (0 : Nat) ≠ i := by omega
          have e2 : (0 : Nat) ≠ (i - 1) / 2 := by omega
          have e3 : (i - 1) / 2 ≠ i := by omega
          simp [swap, e1, e2, e3]
        · intro j hj
          have e1 : j ≠ i := by omega
          have e2 : j ≠ (i - 1) / 2 := by omega
          have e3 : (0 : Nat) ≠ i := by omega
          have e4 : (0 : Nat) ≠ (i - 1) / 2 := by omega
          simp only [swap, e1, e2, e3, e4, if_false]
          exact hle j (by omega)
    · simp only [hgt, if_false]
      have := hle ((i - 1) / 2) (by omega)
      have hng : ¬ ((h i).score > (h 0).score) := by omega
      simp [hng]

theorem insertOne_root (pq : PriorityQueue) (m : Meal) (hh : IsHeap pq.heap pq.size)
    (hroom : pq.size < MAX_SIZE) :
    (insertOne pq m).heap 0 =
      if pq.size = 0 then m else if m.score > (pq.heap 0).score then m else pq.heap 0 := by
  have hn : ¬ (pq.size ≥ MAX_SIZE) := by omega
  simp only [insertOne, insertMeal, hn, if_false, heapifyUp]
  by_cases h0 : pq.size = 0
  · simp [h0, heapifyUpAux_zero]
  · simp only [h0, if_false]
    rw [heapifyUpAux_root _ _ _ (le_refl _) (by omega)]
    · have : (0 : Nat) ≠ pq.size := by omega
      simp [Function.update_noteq this]
    · intro j hj
      have e1 : j ≠ pq.size := by omega
      have e2 : (0 : Nat) ≠ pq.size := by omega
      rw [Function.update_noteq e1, Function.update_noteq e2]
      exact isHeap_root_max pq.heap pq.size hh j hj

/-- After a run of insertions into an empty queue, slot 0 holds the earliest inserted
meal among those of highest score. -/
theorem insertAll_root_firstMax (pq0 : PriorityQueue) (ms : List Meal) :
    ms ≠ [] → ms.length ≤ MAX_SIZE →
    ∃ (i : Nat) (x : Meal), ms[i]? = some x ∧ (insertAll (initPQ pq0) ms).heap 0 = x ∧
      (∀ m ∈ ms, m.score ≤ x.score) ∧
      (∀ (j : Nat) (y : Meal), j < i → ms[j]? = some y → y.score < x.score) := by
  induction ms using List.reverseRecOn with
  | nil => intro h; exact absurd rfl h
  | append_singleton init m ih =>
    intro _ hlen
    simp only [List.length_append, List.length_singleton] at hlen
    have hsz : (insertAll (initPQ pq0) init).size = init.length := by
      have := insertAll_size init (initPQ pq0) (by simp [initPQ]; omega)
      simpa [initPQ] using this
    have hheap := insertAll_isHeap init (initPQ pq0) (initPQ_isHeap pq0)
    have hroot := insertOne_root (insertAll (initPQ pq0) init) m hheap (by omega)
    rw [insertAll_append, hroot, hsz]
    by_cases hinit : init = []
    · subst hinit
      refine ⟨0, m, by simp, by simp, by simp, ?_⟩
      intro j y hj; omega
    · have hl0 : init.length ≠ 0 := by
        intro h; exact hinit (List.length_eq_zero.1 h)
      obtain ⟨i, x, hix, hx, hmax, hearly⟩ := ih hinit (by omega)
      have hilt : i < init.length := by
        by_contra hcon
        rw [List.getElem?_eq_none (by omega)] at hix
        exact absurd hix (by simp)
      simp only [hl0, if_false, hx]
      by_cases hgt : m.score > x.score
      · simp only [hgt, if_true]
        refine ⟨init.length, m, by simp, rfl, ?_, ?_⟩
        · intro y hy
          rcases List.mem_append.1 hy with hy | hy
          · have := hmax y hy; omega
          · simp only [List.mem_singleton] at hy; subst hy; exact le_refl _
        · intro j y hj hjy
          rw [List.getElem?_append_left hj] at hjy
          have := hmax y (List.getElem?_mem hjy)
          omega
      · simp only [hgt, if_false]
        refine ⟨i, x, ?_, rfl, ?_, ?_⟩
        · rw [List.getElem?_append_left hilt]; exact hix
        · intro y hy
          rcases List.mem_append.1 hy with hy | hy
          · exact hmax y hy
          · simp only [List.mem_singleton] at hy; subst hy; omega
        · intro j y hj hjy
          rw [List.getElem?_append_left (by omega)] at hjy
          exact hearly j y hj hjy

/-- C5: for every sequence of at most 100 `insertMeal` calls into an initialised queue,
followed by as many `extractMax` calls as there were insertions, the queue ends up empty,
every inserted meal has been returned, and the scores of the returned meals, in the order
of return, are non-increasing. -/
theorem extractMax_scores_nonincreasing (pq0 : PriorityQueue) (ms : List Meal)
    (hlen : ms.length ≤ MAX_SIZE) :
    ((topK ms.length (insertAll (initPQ pq0) ms)).1.map Meal.score).Sorted (· ≥ ·) ∧
    (topK ms.length (insertAll (initPQ pq0) ms)).1.length = ms.length ∧
    (topK ms.length (insertAll (initPQ pq0) ms)).2.size = 0 := by
  have hheap := insertAll_isHeap ms (initPQ pq0) (initPQ_isHeap pq0)
  have hsz : (insertAll (initPQ pq0) ms).size = ms.length := by
    have := insertAll_size ms (initPQ pq0) (by simp [initPQ]; omega)
    simpa [initPQ] using this
  obtain ⟨h1, h2, _, _, h5, _⟩ := topK_spec ms.length _ hheap
  refine ⟨h5, ?_, ?_⟩
  · rw [h1, hsz]; simp
  · rw [h2, hsz]; simp

/-- C5 at the six meals of the weight-loss test case of `main`. -/
theorem extractMax_scores_nonincreasing_scenario3 :
    scenario3.length ≤ MAX_SIZE ∧
    ((topK scenario3.length (insertAll (initPQ blankQueue) scenario3)).1.map Meal.score).Sorted
      (· ≥ ·) ∧
    (topK scenario3.length (insertAll (initPQ blankQueue) scenario3)).1.length
      = scenario3.length ∧
    (topK scenario3.length (insertAll (initPQ blankQueue) scenario3)).2.size = 0 :=
  ⟨by decide, extractMax_scores_nonincreasing blankQueue scenario3 (by decide)⟩

/-- C6 fails: `tieB` is inserted before `tieC` with the same score, yet the successive
`extractMax` calls return `tieC` before `tieB`. -/
theorem extractMax_ties_not_in_insertion_order :
    tieB.score = tieC.score ∧
    (topK 3 (insertAll (initPQ blankQueue) [tieA, tieB, tieC])).1 = [tieA, tieC, tieB] := by
  decide

/-- C6 as amended: after any non-empty sequence of at most 100 `insertMeal` calls into an
initialised queue, the first `extractMax` returns the earliest inserted meal among those of
highest score: it is the meal of some call `i`, no inserted meal has a higher score, and
every meal inserted before call `i` has a strictly lower score. -/
theorem extractMax_first_is_earliest_highest (pq0 : PriorityQueue) (ms : List Meal)
    (hne : ms ≠ []) (hlen : ms.length ≤ MAX_SIZE) :
    ∃ (i : Nat) (x : Meal), ms[i]? = some x ∧
      (extractMax (insertAll (initPQ pq0) ms)).1 = x ∧
      (∀ m ∈ ms, m.score ≤ x.score) ∧
      (∀ (j : Nat) (y : Meal), j < i → ms[j]? = some y → y.score < x.score) := by
  have hsz : (insertAll (initPQ pq0) ms).size = ms.length := by
    have := insertAll_size ms (initPQ pq0) (by simp [initPQ]; omega)
    simpa [initPQ] using this
  have hpos : 0 < (insertAll (initPQ pq0) ms).size := by
    rw [hsz]
    exact List.length_pos.2 hne
  obtain ⟨i, x, h1, h2, h3, h4⟩ := insertAll_root_firstMax pq0 ms hne hlen
  exact ⟨i, x, h1, by rw [extractMax_fst _ hpos, h2], h3, h4⟩

/-- C6 as amended, at three meals of equal score: the first one inserted is returned first. -/
theorem extractMax_first_is_earliest_highest_ties :
    ([tieA, tieB, tieC] ≠ [] ∧ [tieA, tieB, tieC].length ≤ MAX_SIZE) ∧
    ∃ (i : Nat) (x : Meal), [tieA, tieB, tieC][i]? = some x ∧
      (extractMax (insertAll (initPQ blankQueue) [tieA, tieB, tieC])).1 = x ∧
      (∀ m ∈ [tieA, tieB, tieC], m.score ≤ x.score) ∧
      (∀ (j : Nat) (y : Meal), j < i → [tieA, tieB, tieC][j]? = some y → y.score < x.score) :=
  ⟨⟨by decide, by decide⟩,
   extractMax_first_is_earliest_highest blankQueue [tieA, tieB, tieC] (by decide) (by decide)⟩

/-- C8: on a queue built by `insertMeal` calls and holding `n` meals, the top-K loop with
bound `k` returns `min k n` meals in non-increasing score order, none of them scored lower
than a meal left in the queue, and the returned meals together with the meals left are
exactly the meals held before; in the weight-loss test case of `main` with `k = 3` it
returns Chicken Curry (58), Paneer Bhurji (29) and Egg Curry (25), in that order. -/
theorem topK_returns_highest_scored :
    (∀ (pq0 : PriorityQueue) (ms : List Meal) (k : Nat),
      (topK k (insertAll (initPQ pq0) ms)).1.length = min k (insertAll (initPQ pq0) ms).size ∧
      ((topK k (insertAll (initPQ pq0) ms)).1.map Meal.score).Sorted (· ≥ ·) ∧
      (∀ x ∈ (topK k (insertAll (initPQ pq0) ms)).1,
        ∀ y ∈ contents (topK k (insertAll (initPQ pq0) ms)).2, y.score ≤ x.score) ∧
      ((topK k (insertAll (initPQ pq0) ms)).1 ++
        contents (topK k (insertAll (initPQ pq0) ms)).2).Perm
          (contents (insertAll (initPQ pq0) ms)) ∧
      (topK k (insertAll (initPQ pq0) ms)).2.size = (insertAll (initPQ pq0) ms).size - k) ∧
    ((topK 3 (insertAll (initPQ blankQueue) scenario3)).1.map fun m => (m.name, m.score))
      = [("Chicken Curry", 58), ("Paneer Bhurji", 29), ("Egg Curry", 25)] := by
  refine ⟨?_, by decide⟩
  intro pq0 ms k
  have hheap := insertAll_isHeap ms (initPQ pq0) (initPQ_isHeap pq0)
  obtain ⟨h1, h2, _, h4, h5, h6⟩ := topK_spec k _ hheap
  exact ⟨h1, h5, h6, h4, h2⟩

theorem runOps_isHeap (pq0 : PriorityQueue) (ops : List QueueOp) :
    IsHeap (runOps pq0 ops).heap (runOps pq0 ops).size := by
  unfold runOps
  suffices h : ∀ pq, IsHeap pq.heap pq.size →
      IsHeap (ops.foldl applyOp pq).heap (ops.foldl applyOp pq).size from
    h _ (initPQ_isHeap pq0)
  induction ops with
  | nil => intro pq h; exact h
  | cons op ops ih =>
    intro pq h
    cases op with
    | insertMeal m => exact ih _ (insertOne_isHeap pq m h)
    | extractMax => exact ih _ (extractMax_isHeap pq h)

/-- C28: in every queue state reached from `initPQ` by any interleaving of `insertMeal`
and `extractMax` calls, every index `i` with `1 <= i < size` satisfies
`heap[(i-1)/2].score >= heap[i].score`, and the meal `peekMax` returns, `heap[0]`, has
the highest score of the contents. -/
theorem max_heap_invariant (pq0 : PriorityQueue) (ops : List QueueOp) :
    (∀ i : Nat, 1 ≤ i → i < (runOps pq0 ops).size →
      ((runOps pq0 ops).heap ((i - 1) / 2)).score ≥ ((runOps pq0 ops).heap i).score) ∧
    (∀ x ∈ contents (runOps pq0 ops), (peekMax (runOps pq0 ops)).score ≥ x.score) ∧
    (0 < (runOps pq0 ops).size → peekMax (runOps pq0 ops) = (runOps pq0 ops).heap 0) := by
  have hh := runOps_isHeap pq0 ops
  refine ⟨fun i h1 h2 => hh i (by omega) h2, ?_, ?_⟩
  · intro x hx
    simp only [contents, List.mem_map, List.mem_range] at hx
    obtain ⟨j, hj, rfl⟩ := hx
    have hne : (runOps pq0 ops).size ≠ 0 := by omega
    simp only [peekMax, hne, if_false]
    exact isHeap_root_max _ _ hh j hj
  · intro hpos
    have hne : (runOps pq0 ops).size ≠ 0 := by omega
    simp [peekMax, hne]

/-- C28 on the weight-loss test case of `main` after its six insertions and two
extractions: the four meals left are heap ordered with Egg Curry (25) on top. -/
theorem max_heap_invariant_scenario3 :
    (contents (runOps blankQueue
        (scenario3.map QueueOp.insertMeal ++ [.extractMax, .extractMax]))).map Meal.score
      = [25, 18, 10, -7] ∧
    (peekMax (runOps blankQueue
        (scenario3.map QueueOp.insertMeal ++ [.extractMax, .extractMax]))).name = "Egg Curry" ∧
    (∀ x ∈ contents (runOps blankQueue
        (scenario3.map QueueOp.insertMeal ++ [.extractMax, .extractMax])),
      (peekMax (runOps blankQueue
        (scenario3.map QueueOp.insertMeal ++ [.extractMax, .extractMax]))).score ≥ x.score) :=
  ⟨by decide, by decide,
   (max_heap_invariant blankQueue
      (scenario3.map QueueOp.insertMeal ++ [.extractMax, .extractMax])).2.1⟩

end PQ
end NutriPlan

namespace NutriPlan
namespace Graph

/-- What holds of the search state between any two steps of `findSubstitutes` started at
`v`, on a graph whose chains only hold indices below `N`. -/
structure BfsInv (adj : Nat → List Nat) (N v : Nat) (st : BfsState) : Prop where
  front_le : st.front ≤ st.rear
  shape : queued st = v :: st.swaps
  nodup : (queued st).Nodup
  marked : ∀ u, st.visited u = true ↔ u ∈ queued st
  below : ∀ u ∈ queued st, u < N
  reach : ∀ u ∈ queued st, Relation.ReflTransGen (fun a b => b ∈ adj a) v u

theorem queued_push (st : BfsState) (u : Nat) :
    queued { st with
      visited := Function.update st.visited u true
      queue := Function.update st.queue st.rear u
      rear := st.rear + 1
      swaps := st.swaps ++ [u] } = queued st ++ [u] := by
  simp only [queued, List.range_succ, List.map_append, List.map_cons, List.map_nil,
    Function.update_same]
  congr 1
  apply List.map_congr_left
  intro k hk
  have : k ≠ st.rear := by
    have := List.mem_range.1 hk
    omega
  simp [Function.update_noteq this]

theorem nodup_below_length (l : List Nat) (N : Nat) (hn : l.Nodup) (hb : ∀ x ∈ l, x < N) :
    l.length ≤ N := by
  have hsub : l ⊆ List.range N := fun x hx => List.mem_range.2 (hb x hx)
  have := (hn.subperm hsub).length_le
  simpa using this

theorem queued_length (st : BfsState) : (queued st).length = st.rear := by
  simp [queued]

theorem queue_mem_queued (st : BfsState) (k : Nat) (hk : k < st.rear) :
    st.queue k ∈ queued st :=
  List.mem_map.2 ⟨k, List.mem_range.2 hk, rfl⟩

/-- One adjacency chain is scanned without leaving the arrays; the queue only grows at its
end, and every vertex of the chain is in the queue afterwards. -/
theorem scanAdj_spec (adj : Nat → List Nat) (N v : Nat) (hN : N ≤ MAX_FOODS) (chain : List Nat) :
    ∀ st, BfsInv adj N v st →
      (∀ u ∈ chain, u < N ∧ Relation.ReflTransGen (fun a b => b ∈ adj a) v u) →
      ∃ st1, scanAdj chain st = some st1 ∧ BfsInv adj N v st1 ∧ st1.front = st.front ∧
        st.rear ≤ st1.rear ∧ (∀ k, k < st.rear → st1.queue k = st.queue k) ∧
        (∀ u ∈ queued st, u ∈ queued st1) ∧ (∀ u ∈ chain, u ∈ queued st1) := by
  induction chain with
  | nil =>
    intro st hinv _
    exact ⟨st, rfl, hinv, rfl, le_refl _, fun _ _ => rfl, fun _ h => h, fun _ h => by simp at h⟩
  | cons a next ih =>
    intro st hinv hchain
    have ha := hchain a (List.mem_cons_self _ _)
    have hnext : ∀ u ∈ next, u < N ∧ Relation.ReflTransGen (fun a b => b ∈ adj a) v u :=
      fun u hu => hchain u (List.mem_cons_of_mem _ hu)
    have haM : a < MAX_FOODS := by omega
    unfold scanAdj
    simp only [haM, if_true]
    by_cases hvis : st.visited a = false
    · simp only [hvis, if_true]
      have hnot : a ∉ queued st := by
        intro hmem
        have := (hinv.marked a).2 hmem
        rw [hvis] at this
        exact absurd this (by simp)
      have hnd : (queued st ++ [a]).Nodup := by
        rw [List.nodup_append]
        refine ⟨hinv.nodup, List.nodup_singleton a, ?_⟩
        intro x hx hx2
        simp only [List.mem_singleton] at hx2
        subst hx2
        exact hnot hx
      have hbel : ∀ x ∈ queued st ++ [a], x < N := by
        intro x hx
        rcases List.mem_append.1 hx with hx | hx
        · exact hinv.below x hx
        · simp only [List.mem_singleton] at hx; subst hx; exact ha.1
      have hlen := nodup_below_length _ N hnd hbel
      simp only [List.length_append, queued_length, List.length_singleton] at hlen
      have hrear : st.rear < MAX_QUEUE := by
        have : MAX_QUEUE = MAX_FOODS := rfl
        omega
      simp only [hrear, if_true]
      have hinv1 : BfsInv adj N v
          { st with
            visited := Function.update st.visited a true
            queue := Function.update st.queue st.rear a
            rear := st.rear + 1
            swaps := st.swaps ++ [a] } := by
        refine ⟨?_, ?_, ?_, ?_, ?_, ?_⟩
        · have := hinv.front_le
          show st.front ≤ st.rear + 1
          omega
        · rw [queued_push, hinv.shape]; rfl
        · rw [queued_push]; exact hnd
        · intro u
          rw [queued_push]
          by_cases hua : u = a
          · subst hua; simp
          · simp only [Function.update_noteq hua, List.mem_append, List.mem_singleton, hua,
              or_false]
            exact hinv.marked u
        · rw [queued_push]; exact hbel
        · rw [queued_push]
          intro u hu
          rcases List.mem_append.1 hu with hu | hu
          · exact hinv.reach u hu
          · simp only [List.mem_singleton] at hu; subst hu; exact ha.2
      obtain ⟨st1, hrun, hinv2, hfront, hrear2, hpre, hmono, hall⟩ := ih _ hinv1 hnext
      refine ⟨st1, hrun, hinv2, hfront, ?_, ?_, ?_, ?_⟩
      · have : st.rear + 1 ≤ st1.rear := hrear2
        omega
      · intro k hk
        rw [hpre k (by show k < st.rear + 1; omega)]
        have : k ≠ st.rear := by omega
        simp [Function.update_noteq this]
      · intro u hu
        apply hmono
        rw [queued_push]
        exact List.mem_append_left _ hu
      · intro u hu
        rcases List.mem_cons.1 hu with rfl | hu
        · apply hmono
          rw [queued_push]
          simp
        · exact hall u hu
    · simp only [hvis, if_false]
      obtain ⟨st1, hrun, hinv2, hfront, hrear2, hpre, hmono, hall⟩ := ih st hinv hnext
      refine ⟨st1, hrun, hinv2, hfront, hrear2, hpre, hmono, ?_⟩
      intro u hu
      rcases List.mem_cons.1 hu with rfl | hu
      · apply hmono
        apply (hinv.marked _).1
        simpa using hvis
      · exact hall u hu

/-- The outer loop finishes within the iteration bound, with every dequeued vertex having
all its neighbours in the queue. -/
theorem bfsLoop_spec (graph : FoodGraph) (N v : Nat) (hN : N ≤ MAX_FOODS)
    (hclosed : ∀ a, a < N → ∀ b ∈ graph.adjList a, b < N) (fuel : Nat) :
    ∀ st, BfsInv graph.adjList N v st → N + 1 ≤ fuel + st.front →
      (∀ k, k < st.front → ∀ u ∈ graph.adjList (st.queue k), u ∈ queued st) →
      ∃ st1, bfsLoop graph fuel st = some st1 ∧ BfsInv graph.adjList N v st1 ∧
        (∀ k, k < st1.rear → ∀ u ∈ graph.adjList (st1.queue k), u ∈ queued st1) := by
  induction fuel with
  | zero =>
    intro st hinv hfuel _
    have hlen := nodup_below_length _ N hinv.nodup hinv.below
    rw [queued_length] at hlen
    have := hinv.front_le
    omega
  | succ fuel ih =>
    intro st hinv hfuel hdone
    unfold bfsLoop
    by_cases hlt : st.front < st.rear
    · simp only [hlt, if_true]
      have hcur := queue_mem_queued st st.front hlt
      have hcurN := hinv.below _ hcur
      have hcurR := hinv.reach _ hcur
      have hinv0 : BfsInv graph.adjList N v { st with front := st.front + 1 } :=
        ⟨by show st.front + 1 ≤ st.rear; omega, hinv.shape, hinv.nodup, hinv.marked,
          hinv.below, hinv.reach⟩
      obtain ⟨st1, hrun, hinv1, hfront, hrear, hpre, hmono, hall⟩ :=
        scanAdj_spec graph.adjList N v hN (graph.adjList (st.queue st.front)) _ hinv0
          (fun u hu => ⟨hclosed _ hcurN u hu, hcurR.tail hu⟩)
      rw [hrun]
      simp only []
      apply ih st1 hinv1
      · rw [hfront]; show N + 1 ≤ fuel + (st.front + 1); omega
      · intro k hk u hu
        rw [hfront] at hk
        have hk' : k < st.front + 1 := hk
        have hkr : k < st.rear := by omega
        rw [hpre k hkr] at hu
        by_cases hkf : k = st.front
        · subst hkf
          exact hall u hu
        · exact hmono u (hdone k (by omega) u hu)
    · simp only [hlt, if_false]
      refine ⟨st, rfl, hinv, ?_⟩
      intro k hk u hu
      have := hinv.front_le
      exact hdone k (by omega) u hu

/-- Search from a valid start on a graph whose chains stay below `numFoods`: the reported
vertices are, without repetition, the vertices other than the start that can be reached
along the chains. -/
theorem findSubstitutes_spec (graph : FoodGraph) (v : Nat) (hN : graph.numFoods ≤ MAX_FOODS)
    (hv : v < graph.numFoods)
    (hclosed : ∀ a, a < graph.numFoods → ∀ b ∈ graph.adjList a, b < graph.numFoods) :
    ∃ out, findSubstitutes graph (v : Int) = some out ∧ out.Nodup ∧ v ∉ out ∧
      ∀ u, u ∈ out ↔ (u ≠ v ∧ Relation.ReflTransGen (fun a b => b ∈ graph.adjList a) v u) := by
  have hvM : v < MAX_FOODS := by omega
  have hguard : ¬ ((v : Int) < 0 ∨ (v : Int) ≥ graph.numFoods) := by omega
  unfold findSubstitutes
  simp only [hguard, if_false, Int.toNat_ofNat, hvM, if_true]
  have hinv0 : BfsInv graph.adjList graph.numFoods v
      { visited := Function.update (fun _ => false) v true
        queue := Function.update (fun _ => 0) 0 v
        front := 0
        rear := 1
        swaps := [] } := by
    refine ⟨by show 0 ≤ 1; omega, ?_, ?_, ?_, ?_, ?_⟩
    · simp [queued, List.range_succ]
    · simp [queued, List.range_succ]
    · intro u
      by_cases huv : u = v
      · subst huv; simp [queued, List.range_succ]
      · simp [queued, List.range_succ, Function.update_noteq huv, huv]
    · intro u hu
      simp [queued, List.range_succ] at hu
      omega
    · intro u hu
      simp [queued, List.range_succ] at hu
      subst hu
      exact Relation.ReflTransGen.refl
  obtain ⟨st1, hrun, hinv1, hall⟩ := bfsLoop_spec graph graph.numFoods v hN hclosed (MAX_QUEUE + 1) _
    hinv0 (by show graph.numFoods + 1 ≤ MAX_QUEUE + 1 + 0; have : MAX_QUEUE = MAX_FOODS := rfl; omega)
    (fun k hk => by exact absurd hk (Nat.not_lt_zero k))
  rw [hrun]
  refine ⟨st1.swaps, rfl, ?_, ?_, ?_⟩
  · have := hinv1.nodup
    rw [hinv1.shape] at this
    exact (List.nodup_cons.1 this).2
  · have := hinv1.nodup
    rw [hinv1.shape] at this
    exact (List.nodup_cons.1 this).1
  · have hnd := hinv1.nodup
    rw [hinv1.shape] at hnd
    have hvnot := (List.nodup_cons.1 hnd).1
    have hclosure : ∀ u, Relation.ReflTransGen (fun a b => b ∈ graph.adjList a) v u →
        u ∈ queued st1 := by
      intro u hreach
      induction hreach with
      | refl => rw [hinv1.shape]; exact List.mem_cons_self _ _
      | tail _ hstep ihr =>
        obtain ⟨k, hk, hkb⟩ := List.mem_map.1 ihr
        rw [← hkb] at hstep
        exact hall k (List.mem_range.1 hk) _ hstep
    intro u
    constructor
    · intro hu
      refine ⟨?_, ?_⟩
      · rintro rfl; exact hvnot hu
      · apply hinv1.reach
        rw [hinv1.shape]
        exact List.mem_cons_of_mem _ hu
    · rintro ⟨hne, hreach⟩
      have hin := hclosure u hreach
      rw [hinv1.shape] at hin
      rcases List.mem_cons.1 hin with h | h
      · exact absurd h hne
      · exact h

theorem build_append (g0 : FoodGraph) (ops : List GraphOp) (op : GraphOp) :
    build g0 (ops ++ [op]) = applyOp (build g0 ops) op := by
  simp [build, List.foldl_append]

theorem mem_addEdge_adjList (graph : FoodGraph) (a b i u : Nat) :
    u ∈ (addEdge graph a b).adjList i ↔
      u ∈ graph.adjList i ∨ (i = a ∧ u = b) ∨ (i = b ∧ u = a) := by
  simp only [addEdge]
  by_cases hib : i = b
  · subst hib
    rw [Function.update_same]
    by_cases hia : i = a
    · subst hia
      rw [Function.update_same]
      simp only [List.mem_cons]
      tauto
    · rw [Function.update_noteq hia]
      simp only [List.mem_cons]
      tauto
  · rw [Function.update_noteq hib]
    by_cases hia : i = a
    · subst hia
      rw [Function.update_same]
      simp only [List.mem_cons]
      tauto
    · rw [Function.update_noteq hia]
      tauto

theorem build_numFoods_le (g0 : FoodGraph) (ops : List GraphOp) :
    (build g0 ops).numFoods ≤ MAX_FOODS := by
  induction ops using List.reverseRecOn with
  | nil => simp [build, initGraph]
  | append_singleton ops op ih =>
    rw [build_append]
    cases op with
    | addFood name hindiName calories protein dietType =>
      simp only [applyOp, addFood]
      split
      · exact ih
      · show (build g0 ops).numFoods + 1 ≤ MAX_FOODS
        omega
    | addEdge a b => exact ih

theorem build_adjList (g0 : FoodGraph) (ops : List GraphOp) :
    ∀ i, i < MAX_FOODS → ∀ u, u ∈ (build g0 ops).adjList i ↔ Edge ops i u := by
  induction ops using List.reverseRecOn with
  | nil =>
    intro i hi u
    simp [build, initGraph, hi, Edge]
  | append_singleton ops op ih =>
    intro i hi u
    rw [build_append]
    cases op with
    | addFood name hindiName calories protein dietType =>
      have hsame : (applyOp (build g0 ops) (.addFood name hindiName calories protein dietType)).adjList
          = (build g0 ops).adjList := by
        simp only [applyOp, addFood]
        split <;> rfl
      rw [hsame, ih i hi u]
      simp [Edge]
    | addEdge a b =>
      simp only [applyOp]
      rw [mem_addEdge_adjList, ih i hi u]
      simp only [Edge, List.mem_append, List.mem_singleton, GraphOp.addEdge.injEq]
      tauto

/-- C4: for every graph built by `addFood` and `addEdge` calls whose edge endpoints are
valid vertex indices, and every valid vertex `v`, `findSubstitutes(v)` finishes and reports
each vertex other than `v` that is reachable from `v` by one or more edges, reports no other
vertex, reports none twice, and never reports `v` itself. -/
theorem findSubstitutes_reports_reachable (g0 : FoodGraph) (ops : List GraphOp) (v : Nat)
    (hedges : ∀ a b, GraphOp.addEdge a b ∈ ops →
      a < (build g0 ops).numFoods ∧ b < (build g0 ops).numFoods)
    (hv : v < (build g0 ops).numFoods) :
    ∃ out, findSubstitutes (build g0 ops) (v : Int) = some out ∧ out.Nodup ∧ v ∉ out ∧
      ∀ u, u ∈ out ↔ (u ≠ v ∧ Relation.TransGen (Edge ops) v u) := by
  have hN := build_numFoods_le g0 ops
  have hlt : ∀ a b, Edge ops a b → a < (build g0 ops).numFoods ∧ b < (build g0 ops).numFoods := by
    intro a b h
    rcases h with h | h
    · exact hedges a b h
    · exact (hedges b a h).symm
  have hclosed : ∀ a, a < (build g0 ops).numFoods → ∀ b ∈ (build g0 ops).adjList a,
      b < (build g0 ops).numFoods := by
    intro a ha b hb
    exact (hlt a b ((build_adjList g0 ops a (by omega) b).1 hb)).2
  obtain ⟨out, hrun, hnd, hvout, hmem⟩ := findSubstitutes_spec (build g0 ops) v hN hv hclosed
  refine ⟨out, hrun, hnd, hvout, ?_⟩
  intro u
  rw [hmem u]
  constructor
  · rintro ⟨hne, hreach⟩
    refine ⟨hne, ?_⟩
    have key : ∀ w, Relation.ReflTransGen (fun a b => b ∈ (build g0 ops).adjList a) v w →
        w < (build g0 ops).numFoods ∧ Relation.ReflTransGen (Edge ops) v w := by
      intro w hw
      induction hw with
      | refl => exact ⟨hv, Relation.ReflTransGen.refl⟩
      | tail _ hstep ih =>
        have hedge := (build_adjList g0 ops _ (by omega) _).1 hstep
        exact ⟨(hlt _ _ hedge).2, ih.2.tail hedge⟩
    rcases (Relation.reflTransGen_iff_eq_or_transGen.1 (key u hreach).2) with h | h
    · exact absurd h hne
    · exact h
  · rintro ⟨hne, hreach⟩
    refine ⟨hne, ?_⟩
    refine Relation.ReflTransGen.mono ?_ hreach.to_reflTransGen
    intro a b hab
    exact (build_adjList g0 ops a (by have := (hlt a b hab).1; omega) b).2 hab

/-- C4 on the eight-vertex paneer graph (paneer 0, tofu 1, mushroom 2, soya 3, dal 4,
chole 5, rajma 6, egg 7): the search from paneer reports egg, soya, mushroom, tofu, dal,
rajma, chole, each once. -/
theorem findSubstitutes_paneer_scenario :
    findSubstitutes (build blankGraph paneerOps) 0 = some [7, 3, 2, 1, 4, 6, 5] ∧
    ∃ out, findSubstitutes (build blankGraph paneerOps) ((0 : Nat) : Int) = some out ∧ out.Nodup ∧
      0 ∉ out ∧ ∀ u, u ∈ out ↔ (u ≠ 0 ∧ Relation.TransGen (Edge paneerOps) 0 u) :=
  ⟨by decide,
   findSubstitutes_reports_reachable blankGraph paneerOps 0
    (by
      have hn : (build blankGraph paneerOps).numFoods = 8 := by decide
      rw [hn]
      intro a b h
      simp only [paneerOps, List.mem_cons, GraphOp.addEdge.injEq, List.mem_singleton,
        reduceCtorEq, false_or, List.not_mem_nil, or_false] at h
      omega)
    (by decide)⟩

theorem areConnected_iff_mem (graph : FoodGraph) (food1 food2 : Nat) :
    areConnected graph food1 food2 = true ↔ food2 ∈ graph.adjList food1 := by
  simp [areConnected, List.any_eq_true]

/-- C15: on every graph built by `addFood` and `addEdge` calls and for all valid vertex
indices `a` and `b`, after `addEdge(a, b)` both `areConnected(a, b)` and
`areConnected(b, a)` return true, and they still do after any further `addFood` and
`addEdge` calls. -/
theorem areConnected_after_addEdge (g0 : FoodGraph) (ops0 ops1 : List GraphOp) (a b : Nat)
    (ha : a < (build g0 ops0).numFoods) (hb : b < (build g0 ops0).numFoods) :
    areConnected (build g0 (ops0 ++ GraphOp.addEdge a b :: ops1)) a b = true ∧
    areConnected (build g0 (ops0 ++ GraphOp.addEdge a b :: ops1)) b a = true := by
  have hN := build_numFoods_le g0 ops0
  have hmem : GraphOp.addEdge a b ∈ ops0 ++ GraphOp.addEdge a b :: ops1 := by simp
  constructor
  · rw [areConnected_iff_mem, build_adjList _ _ a (by omega) b]
    exact Or.inl hmem
  · rw [areConnected_iff_mem, build_adjList _ _ b (by omega) a]
    exact Or.inr hmem

/-- C15 on the paneer graph: mushroom (2) and chole (5) are linked, then one more edge is
added. -/
theorem areConnected_after_addEdge_paneer :
    (2 < (build blankGraph paneerOps).numFoods ∧ 5 < (build blankGraph paneerOps).numFoods) ∧
    (areConnected (build blankGraph (paneerOps ++ GraphOp.addEdge 2 5 :: [.addEdge 0 1])) 2 5
        = true ∧
      areConnected (build blankGraph (paneerOps ++ GraphOp.addEdge 2 5 :: [.addEdge 0 1])) 5 2
        = true) :=
  ⟨⟨by decide, by decide⟩,
   areConnected_after_addEdge blankGraph paneerOps [.addEdge 0 1] 2 5 (by decide) (by decide)⟩

theorem build_adjList_eq (g0 : FoodGraph) (ops : List GraphOp) (v : Nat) (hv : v < MAX_FOODS) :
    (build g0 ops).adjList v = (ops.flatMap (edgeEnds v)).reverse := by
  induction ops using List.reverseRecOn with
  | nil => simp [build, initGraph, hv]
  | append_singleton ops op ih =>
    rw [build_append, List.flatMap_append]
    cases op with
    | addFood name hindiName calories protein dietType =>
      have hsame : (applyOp (build g0 ops) (.addFood name hindiName calories protein dietType)).adjList
          = (build g0 ops).adjList := by
        simp only [applyOp, addFood]
        split <;> rfl
      rw [hsame, ih]
      simp [edgeEnds]
    | addEdge a b =>
      simp only [applyOp, addEdge, List.flatMap_cons, List.flatMap_nil, List.append_nil, edgeEnds,
        List.reverse_append]
      by_cases hb : b = v
      · subst hb
        rw [Function.update_same]
        by_cases ha : a = b
        · subst ha
          rw [Function.update_same, ih]
          simp
        · have : b ≠ a := fun h => ha h.symm
          rw [Function.update_noteq this, ih]
          simp [ha]
      · have hvb : v ≠ b := fun h => hb h.symm
        rw [Function.update_noteq hvb]
        by_cases ha : a = v
        · subst ha
          rw [Function.update_same, ih]
          simp [hb]
        · have hva : v ≠ a := fun h => ha h.symm
          rw [Function.update_noteq hva, ih]
          simp [ha, hb]

/-- C26: in every graph built by `addFood` and `addEdge` calls and for every vertex slot
`v`, walking the adjacency list of `v` from its head yields the other endpoints of the
`addEdge` calls that involved `v`, one entry per call and two for a self-loop, the most
recent call first; a repeated edge is listed once per call. `getDegree` counts these
entries. -/
theorem adjList_reverse_call_order (g0 : FoodGraph) (ops : List GraphOp) (v : Nat)
    (hv : v < MAX_FOODS) :
    (build g0 ops).adjList v = (ops.flatMap (edgeEnds v)).reverse ∧
    getDegree (build g0 ops) v = (ops.flatMap (edgeEnds v)).length := by
  have h := build_adjList_eq g0 ops v hv
  exact ⟨h, by simp [getDegree, h]⟩

/-- C26 on the paneer graph and on a graph with a repeated edge and a self-loop: paneer
(0) lists egg, soya, mushroom, tofu; in the second graph vertex 1 lists itself twice for
its self-loop and vertex 0 twice for the repeated edge. -/
theorem adjList_reverse_call_order_examples :
    ((0 < MAX_FOODS ∧ (build blankGraph paneerOps).adjList 0 = [7, 3, 2, 1] ∧
      (build blankGraph loopyOps).adjList 1 = [1, 1, 2, 0, 0] ∧
      getDegree (build blankGraph loopyOps) 1 = 5)) ∧
    ((build blankGraph paneerOps).adjList 0 = (paneerOps.flatMap (edgeEnds 0)).reverse ∧
      getDegree (build blankGraph paneerOps) 0 = (paneerOps.flatMap (edgeEnds 0)).length) :=
  ⟨⟨by decide, by decide, by decide, by decide⟩,
   adjList_reverse_call_order blankGraph paneerOps 0 (by decide)⟩

theorem bfsLoop_stops (graph : FoodGraph) (fuel : Nat) : ∀ st st1 : BfsState,
    bfsLoop graph fuel st = some st1 → st1.rear ≤ st1.front := by
  induction fuel with
  | zero => intro st st1 h; simp [bfsLoop] at h
  | succ fuel ih =>
    intro st st1 h
    unfold bfsLoop at h
    by_cases hlt : st.front < st.rear
    · simp only [hlt, if_true] at h
      cases hscan : scanAdj (graph.adjList (st.queue st.front)) { st with front := st.front + 1 } with
      | none => rw [hscan] at h; simp at h
      | some st2 =>
        rw [hscan] at h
        exact ih st2 st1 h
    · simp only [hlt, if_false, Option.some.injEq] at h
      subst h
      omega

theorem bfsStart_inv (graph : FoodGraph) (v : Nat) (hv : v < graph.numFoods) :
    BfsInv graph.adjList graph.numFoods v (bfsStart v) := by
  refine ⟨by show 0 ≤ 1; omega, ?_, ?_, ?_, ?_, ?_⟩
  · simp [queued, bfsStart, List.range_succ]
  · simp [queued, bfsStart, List.range_succ]
  · intro u
    by_cases huv : u = v
    · subst huv; simp [queued, bfsStart, List.range_succ]
    · simp [queued, bfsStart, List.range_succ, Function.update_noteq huv, huv]
  · intro u hu
    simp [queued, bfsStart, List.range_succ] at hu
    omega
  · intro u hu
    simp [queued, bfsStart, List.range_succ] at hu
    subst hu
    exact Relation.ReflTransGen.refl

theorem findSubstitutes_eq_bfsLoop (graph : FoodGraph) (v : Nat) (hN : graph.numFoods ≤ MAX_FOODS)
    (hv : v < graph.numFoods) :
    findSubstitutes graph (v : Int)
      = (bfsLoop graph (MAX_QUEUE + 1) (bfsStart v)).map BfsState.swaps := by
  have hvM : v < MAX_FOODS := by omega
  have hguard : ¬ ((v : Int) < 0 ∨ (v : Int) ≥ graph.numFoods) := by omega
  unfold findSubstitutes
  simp only [hguard, if_false, Int.toNat_ofNat, hvM, if_true]
  rfl

theorem bfsIter_inv (graph : FoodGraph) (N v : Nat) (hN : N ≤ MAX_FOODS)
    (hclosed : ∀ a, a < N → ∀ b ∈ graph.adjList a, b < N) (k : Nat) :
    ∀ st, BfsInv graph.adjList N v st →
      ∃ st1, bfsIter graph k st = some st1 ∧ BfsInv graph.adjList N v st1 := by
  induction k with
  | zero => intro st hinv; exact ⟨st, rfl, hinv⟩
  | succ k ih =>
    intro st hinv
    unfold bfsIter
    by_cases hlt : st.front < st.rear
    · simp only [hlt, if_true]
      have hcur := queue_mem_queued st st.front hlt
      have hcurN := hinv.below _ hcur
      have hcurR := hinv.reach _ hcur
      have hinv0 : BfsInv graph.adjList N v { st with front := st.front + 1 } :=
        ⟨by show st.front + 1 ≤ st.rear; omega, hinv.shape, hinv.nodup, hinv.marked,
          hinv.below, hinv.reach⟩
      obtain ⟨st1, hrun, hinv1, _⟩ :=
        scanAdj_spec graph.adjList N v hN (graph.adjList (st.queue st.front)) _ hinv0
          (fun u hu => ⟨hclosed _ hcurN u hu, hcurR.tail hu⟩)
      rw [hrun]
      exact ih st1 hinv1
    · simp only [hlt, if_false]
      exact ⟨st, rfl, hinv⟩

/-- C30: on every graph with `numFoods <= 50` whose chains hold only indices below
`numFoods`, and for every valid start vertex, the search never indexes `visited` or
`queue` out of bounds and its loop ends with the queue used up, after at most `numFoods`
iterations; after any number of iterations no vertex is in the queue twice and the write
index `rear` is at most `numFoods`, hence at most `MAX_QUEUE`. Repeated edges, cycles and
self-loops are not excluded. -/
theorem findSubstitutes_queue_bound (graph : FoodGraph) (v : Nat)
    (hN : graph.numFoods ≤ MAX_FOODS) (hv : v < graph.numFoods)
    (hclosed : ∀ a, a < graph.numFoods → ∀ b ∈ graph.adjList a, b < graph.numFoods) :
    (∀ fuel, graph.numFoods + 1 ≤ fuel →
      ∃ st, bfsLoop graph fuel (bfsStart v) = some st ∧ st.front = st.rear ∧
        st.rear ≤ graph.numFoods ∧ st.rear ≤ MAX_QUEUE ∧ (queued st).Nodup ∧
        (∀ u ∈ queued st, u < graph.numFoods)) ∧
    (∀ k, ∃ st, bfsIter graph k (bfsStart v) = some st ∧ st.rear ≤ graph.numFoods ∧
      st.rear ≤ MAX_QUEUE ∧ (queued st).Nodup ∧ (∀ u ∈ queued st, u < graph.numFoods)) ∧
    ∃ out, findSubstitutes graph (v : Int) = some out ∧ out.Nodup ∧
      out.length + 1 ≤ graph.numFoods := by
  have hrun : ∀ fuel, graph.numFoods + 1 ≤ fuel →
      ∃ st, bfsLoop graph fuel (bfsStart v) = some st ∧ st.front = st.rear ∧
        st.rear ≤ graph.numFoods ∧ st.rear ≤ MAX_QUEUE ∧ (queued st).Nodup ∧
        (∀ u ∈ queued st, u < graph.numFoods) ∧ queued st = v :: st.swaps := by
    intro fuel hfuel
    obtain ⟨st, hst, hinv, _⟩ := bfsLoop_spec graph graph.numFoods v hN hclosed fuel (bfsStart v)
      (bfsStart_inv graph v hv) (by show graph.numFoods + 1 ≤ fuel + 0; omega)
      (fun k hk => by exact absurd hk (Nat.not_lt_zero k))
    have hstop := bfsLoop_stops graph fuel _ _ hst
    have hlen := nodup_below_length _ _ hinv.nodup hinv.below
    rw [queued_length] at hlen
    have hfr := hinv.front_le
    have hMQ : MAX_QUEUE = MAX_FOODS := rfl
    exact ⟨st, hst, by omega, hlen, by omega, hinv.nodup, hinv.below, hinv.shape⟩
  refine ⟨fun fuel hfuel => ?_, fun k => ?_, ?_⟩
  · obtain ⟨st, h1, h2, h3, h4, h5, h6, _⟩ := hrun fuel hfuel
    exact ⟨st, h1, h2, h3, h4, h5, h6⟩
  · obtain ⟨st, hst, hinv⟩ := bfsIter_inv graph graph.numFoods v hN hclosed k (bfsStart v)
      (bfsStart_inv graph v hv)
    have hlen := nodup_below_length _ _ hinv.nodup hinv.below
    rw [queued_length] at hlen
    have hMQ : MAX_QUEUE = MAX_FOODS := rfl
    exact ⟨st, hst, hlen, by omega, hinv.nodup, hinv.below⟩
  · have hMQ : MAX_QUEUE = MAX_FOODS := rfl
    obtain ⟨st, h1, _, h3, _, h5, _, h7⟩ := hrun (MAX_QUEUE + 1) (by omega)
    refine ⟨st.swaps, ?_, ?_, ?_⟩
    · rw [findSubstitutes_eq_bfsLoop graph v hN hv, h1]; rfl
    · rw [h7] at h5
      exact (List.nodup_cons.1 h5).2
    · have := queued_length st
      rw [h7] at this
      simp only [List.length_cons] at this
      omega

/-- C30 on a three-vertex graph with a repeated edge, a cycle and a self-loop, searched
from vertex 0: both other vertices are reported once. -/
theorem findSubstitutes_queue_bound_loopy :
    ((build blankGraph loopyOps).numFoods ≤ MAX_FOODS ∧
      0 < (build blankGraph loopyOps).numFoods ∧
      (∀ a, a < (build blankGraph loopyOps).numFoods →
        ∀ b ∈ (build blankGraph loopyOps).adjList a, b < (build blankGraph loopyOps).numFoods) ∧
      findSubstitutes (build blankGraph loopyOps) 0 = some [2, 1]) ∧
    ((∀ fuel, (build blankGraph loopyOps).numFoods + 1 ≤ fuel →
      ∃ st, bfsLoop (build blankGraph loopyOps) fuel (bfsStart 0) = some st ∧
        st.front = st.rear ∧ st.rear ≤ (build blankGraph loopyOps).numFoods ∧
        st.rear ≤ MAX_QUEUE ∧ (queued st).Nodup ∧
        (∀ u ∈ queued st, u < (build blankGraph loopyOps).numFoods)) ∧
    (∀ k, ∃ st, bfsIter (build blankGraph loopyOps) k (bfsStart 0) = some st ∧
      st.rear ≤ (build blankGraph loopyOps).numFoods ∧ st.rear ≤ MAX_QUEUE ∧
      (queued st).Nodup ∧ (∀ u ∈ queued st, u < (build blankGraph loopyOps).numFoods)) ∧
    ∃ out, findSubstitutes (build blankGraph loopyOps) ((0 : Nat) : Int) = some out ∧
      out.Nodup ∧ out.length + 1 ≤ (build blankGraph loopyOps).numFoods) :=
  ⟨⟨by decide, by decide, by decide, by decide⟩,
   findSubstitutes_queue_bound (build blankGraph loopyOps) 0 (by decide) (by decide)
    (by decide)⟩

theorem mem_freshOf (chain : List Nat) : ∀ (seen : List Nat) (x : Nat),
    x ∈ freshOf chain seen ↔ x ∈ chain ∧ x ∉ seen := by
  induction chain with
  | nil => intro seen x; simp [freshOf]
  | cons a rest ih =>
    intro seen x
    unfold freshOf
    by_cases ha : a ∈ seen
    · simp only [ha, if_true, ih, List.mem_cons]
      constructor
      · rintro ⟨h1, h2⟩; exact ⟨Or.inr h1, h2⟩
      · rintro ⟨h1 | h1, h2⟩
        · subst h1; exact absurd ha h2
        · exact ⟨h1, h2⟩
    · simp only [ha, if_false, List.mem_cons, ih, List.mem_append, not_or]
      constructor
      · rintro (h | ⟨h1, h2, _⟩)
        · subst h; exact ⟨Or.inl rfl, ha⟩
        · exact ⟨Or.inr h1, h2⟩
      · rintro ⟨h1 | h1, h2⟩
        · exact Or.inl h1
        · by_cases hxa : x = a
          · exact Or.inl hxa
          · exact Or.inr ⟨h1, h2, by simpa using hxa⟩

/-- What one scan adds to the queue: the vertices of the chain that were not yet in the
queue, each once, in chain order. -/
theorem scanAdj_queued (chain : List Nat) : ∀ st st1 : BfsState,
    (∀ u, st.visited u = true ↔ u ∈ queued st) → scanAdj chain st = some st1 →
    queued st1 = queued st ++ freshOf chain (queued st) := by
  induction chain with
  | nil =>
    intro st st1 _ h
    simp only [scanAdj, Option.some.injEq] at h
    subst h
    simp [freshOf]
  | cons a rest ih =>
    intro st st1 hmark h
    unfold scanAdj at h
    by_cases haM : a < MAX_FOODS
    · simp only [haM, if_true] at h
      by_cases hvis : st.visited a = false
      · simp only [hvis, if_true] at h
        have hnot : a ∉ queued st := by
          intro hmem
          have := (hmark a).2 hmem
          rw [hvis] at this
          exact absurd this (by simp)
        by_cases hrear : st.rear < MAX_QUEUE
        · simp only [hrear, if_true] at h
          have hmark1 : ∀ u, (Function.update st.visited a true) u = true ↔
              u ∈ queued { st with
                visited := Function.update st.visited a true
                queue := Function.update st.queue st.rear a
                rear := st.rear + 1
                swaps := st.swaps ++ [a] } := by
            intro u
            rw [queued_push]
            by_cases hua : u = a
            · subst hua; simp
            · simp only [Function.update_noteq hua, List.mem_append, List.mem_singleton, hua,
                or_false]
              exact hmark u
          have := ih _ st1 hmark1 h
          rw [this, queued_push]
          simp [freshOf, hnot]
        · simp only [hrear, if_false] at h
          exact absurd h (by simp)
      · simp only [hvis, if_false] at h
        have hin : a ∈ queued st := by
          apply (hmark a).1
          simpa using hvis
        rw [ih st st1 hmark h]
        simp [freshOf, hin]
    · simp only [haM, if_false] at h
      exact absurd h (by simp)

theorem isDist_unique (r : Nat → Nat → Prop) (a b n m : Nat) (h1 : IsDist r a b n)
    (h2 : IsDist r a b m) : n = m :=
  Nat.le_antisymm (h1.2 m h2.1) (h2.2 n h1.1)

theorem exists_isDist_of_walk (r : Nat → Nat → Prop) (a b : Nat) : ∀ n : Nat,
    Walk r a b n → ∃ d, d ≤ n ∧ IsDist r a b d := by
  intro n
  induction n using Nat.strong_induction_on with
  | _ n ih =>
    intro hw
    by_cases hsm : ∃ m, m < n ∧ Walk r a b m
    · obtain ⟨m, hm, hwm⟩ := hsm
      obtain ⟨d, hd, hdist⟩ := ih m hm hwm
      exact ⟨d, by omega, hdist⟩
    · refine ⟨n, le_refl _, hw, ?_⟩
      intro m hwm
      by_contra hlt
      exact hsm ⟨m, by omega, hwm⟩

theorem walk_of_reflTransGen (r : Nat → Nat → Prop) (a b : Nat)
    (h : Relation.ReflTransGen r a b) : ∃ n, Walk r a b n := by
  induction h with
  | refl => exact ⟨0, Walk.zero⟩
  | tail _ hstep ih =>
    obtain ⟨n, hn⟩ := ih
    exact ⟨n + 1, Walk.step hn hstep⟩

theorem queued_getElem? (st : BfsState) (k : Nat) (hk : k < st.rear) :
    (queued st)[k]? = some (st.queue k) := by
  simp [queued, hk]

/-- Order facts that hold of the queue between two iterations of the outer loop; `blocks`
holds, for each vertex taken off the queue so far, the vertices its scan added. -/
structure BfsOrd (adj : Nat → List Nat) (v : Nat) (st : BfsState) (blocks : List (List Nat)) :
    Prop where
  sorted : ∀ (i j x y dx dy : Nat), i ≤ j → (queued st)[i]? = some x →
    (queued st)[j]? = some y → IsDist (fun a b => b ∈ adj a) v x dx →
    IsDist (fun a b => b ∈ adj a) v y dy → dx ≤ dy
  near : ∀ (p x dp dx : Nat), (queued st)[st.front]? = some p → x ∈ queued st →
    IsDist (fun a b => b ∈ adj a) v p dp → IsDist (fun a b => b ∈ adj a) v x dx → dx ≤ dp + 1
  closed : ∀ (k p : Nat), k < st.front → (queued st)[k]? = some p →
    ∀ u ∈ adj p, u ∈ queued st
  blocksLen : blocks.length = st.front
  blocksJoin : queued st = v :: blocks.flatten
  blocksEq : ∀ (k p : Nat), k < st.front → (queued st)[k]? = some p →
    blocks[k]? = some (freshOf (adj p) (v :: (blocks.take k).flatten))

theorem bfsStart_ord (adj : Nat → List Nat) (v : Nat) : BfsOrd adj v (bfsStart v) [] := by
  have hq : queued (bfsStart v) = [v] := by simp [queued, bfsStart, List.range_succ]
  refine ⟨?_, ?_, ?_, rfl, by simp [hq], ?_⟩
  · intro i j x y dx dy _ hx hy h1 h2
    rw [hq] at hx hy
    have hxv : x = v := by
      cases i with
      | zero => simpa using hx.symm
      | succ i => simp at hx
    have hyv : y = v := by
      cases j with
      | zero => simpa using hy.symm
      | succ j => simp at hy
    subst hxv; subst hyv
    exact le_of_eq (isDist_unique _ _ _ _ _ h1 h2)
  · intro p x dp dx hp hx h1 h2
    rw [hq] at hp hx
    have hpv : p = v := by
      have : (bfsStart v).front = 0 := rfl
      rw [this] at hp
      simpa using hp.symm
    have hxv : x = v := by simpa using hx
    subst hpv; subst hxv
    have := isDist_unique _ _ _ _ _ h1 h2
    omega
  · intro k p hk
    exact absurd hk (Nat.not_lt_zero k)
  · intro k p hk
    exact absurd hk (Nat.not_lt_zero k)

/-- While the vertex at the front of the queue is `p`, at distance `dp`, every vertex
within `dp` steps of the start is already in the queue. -/
theorem walk_mem_queued (adj : Nat → List Nat) (N v : Nat) (st : BfsState)
    (blocks : List (List Nat)) (hinv : BfsInv adj N v st) (hord : BfsOrd adj v st blocks)
    (p dp : Nat) (hp : (queued st)[st.front]? = some p)
    (hdp : IsDist (fun a b => b ∈ adj a) v p dp) :
    ∀ (m w : Nat), Walk (fun a b => b ∈ adj a) v w m → m ≤ dp → w ∈ queued st := by
  intro m w hw
  induction hw with
  | zero =>
    intro _
    rw [hinv.shape]
    exact List.mem_cons_self _ _
  | step hwalk hstep ih =>
    rename_i b c n
    intro hle
    have hb := ih (by omega)
    obtain ⟨i, hi⟩ := List.mem_iff_getElem?.1 hb
    obtain ⟨db, hdb, hdist⟩ := exists_isDist_of_walk _ v b n hwalk
    have hif : i < st.front := by
      by_contra hcon
      have := hord.sorted st.front i p b dp db (by omega) hp hi hdp hdist
      omega
    exact hord.closed i b hif hi c hstep

theorem bfsLoop_order (graph : FoodGraph) (N v : Nat) (hN : N ≤ MAX_FOODS)
    (hclosed : ∀ a, a < N → ∀ b ∈ graph.adjList a, b < N) (fuel : Nat) :
    ∀ (st : BfsState) (blocks : List (List Nat)), BfsInv graph.adjList N v st →
      BfsOrd graph.adjList v st blocks →
      ∀ st1, bfsLoop graph fuel st = some st1 →
        ∃ blocks1, BfsInv graph.adjList N v st1 ∧ BfsOrd graph.adjList v st1 blocks1 := by
  induction fuel with
  | zero => intro st blocks _ _ st1 h; simp [bfsLoop] at h
  | succ fuel ih =>
    intro st blocks hinv hord st1 hrun
    unfold bfsLoop at hrun
    by_cases hlt : st.front < st.rear
    · simp only [hlt, if_true] at hrun
      -- the vertex taken off the queue and its distance
      have hpq := queued_getElem? st st.front hlt
      have hcur := queue_mem_queued st st.front hlt
      have hcurN := hinv.below _ hcur
      have hcurR := hinv.reach _ hcur
      obtain ⟨n0, hw0⟩ := walk_of_reflTransGen _ _ _ hcurR
      obtain ⟨dp, _, hdp⟩ := exists_isDist_of_walk _ _ _ _ hw0
      have hinv0 : BfsInv graph.adjList N v { st with front := st.front + 1 } :=
        ⟨by show st.front + 1 ≤ st.rear; omega, hinv.shape, hinv.nodup, hinv.marked,
          hinv.below, hinv.reach⟩
      obtain ⟨st2, hscan, hinv2, hfront2, hrear2, hpre, hmono, hall⟩ :=
        scanAdj_spec graph.adjList N v hN (graph.adjList (st.queue st.front)) _ hinv0
          (fun u hu => ⟨hclosed _ hcurN u hu, hcurR.tail hu⟩)
      rw [hscan] at hrun
      simp only [] at hrun
      have hq2 : queued st2 = queued st
          ++ freshOf (graph.adjList (st.queue st.front)) (queued st) :=
        scanAdj_queued _ { st with front := st.front + 1 } st2 hinv0.marked hscan
      have hfront2' : st2.front = st.front + 1 := hfront2
      have hlenQ : (queued st).length = st.rear := queued_length st
      -- every added vertex is one step further than the vertex scanned
      have hfresh : ∀ x ∈ freshOf (graph.adjList (st.queue st.front)) (queued st),
          IsDist (fun a b => b ∈ graph.adjList a) v x (dp + 1) := by
        intro x hx
        obtain ⟨hxadj, hxnot⟩ := (mem_freshOf _ _ _).1 hx
        refine ⟨Walk.step hdp.1 hxadj, ?_⟩
        intro m hwm
        by_contra hcon
        exact hxnot (walk_mem_queued graph.adjList N v st blocks hinv hord _ dp hpq hdp m x hwm
          (by omega))
      have hsorted2 : ∀ (i j x y dx dy : Nat), i ≤ j → (queued st2)[i]? = some x →
          (queued st2)[j]? = some y → IsDist (fun a b => b ∈ graph.adjList a) v x dx →
          IsDist (fun a b => b ∈ graph.adjList a) v y dy → dx ≤ dy := by
        intro i j x y dx dy hij hx hy h1 h2
        rw [hq2] at hx hy
        by_cases hj : j < (queued st).length
        · rw [List.getElem?_append_left hj] at hy
          rw [List.getElem?_append_left (by omega)] at hx
          exact hord.sorted i j x y dx dy hij hx hy h1 h2
        · rw [List.getElem?_append_right (by omega)] at hy
          have hyf := hfresh y (List.getElem?_mem hy)
          have hdy := isDist_unique _ _ _ _ _ h2 hyf
          by_cases hi : i < (queued st).length
          · rw [List.getElem?_append_left hi] at hx
            have := hord.near _ x dp dx hpq (List.getElem?_mem hx) hdp h1
            omega
          · rw [List.getElem?_append_right (by omega)] at hx
            have hxf := hfresh x (List.getElem?_mem hx)
            have hdx := isDist_unique _ _ _ _ _ h1 hxf
            omega
      have hp2 : (queued st2)[st.front]? = some (st.queue st.front) := by
        rw [hq2, List.getElem?_append_left (by omega)]
        exact hpq
      have hord2 : BfsOrd graph.adjList v st2
          (blocks ++ [freshOf (graph.adjList (st.queue st.front)) (queued st)]) := by
        refine ⟨hsorted2, ?_, ?_, ?_, ?_, ?_⟩
        · intro p1 x dp1 dx hp1 hx h1 h2
          rw [hfront2'] at hp1
          have hle : dp ≤ dp1 :=
            hsorted2 st.front (st.front + 1) _ p1 dp dp1 (by omega) hp2 hp1 hdp h1
          rw [hq2] at hx
          rcases List.mem_append.1 hx with hx | hx
          · have := hord.near _ x dp dx hpq hx hdp h2
            omega
          · have := isDist_unique _ _ _ _ _ h2 (hfresh x hx)
            omega
        · intro k q hk hq u hu
          rw [hfront2'] at hk
          rw [hq2] at hq ⊢
          by_cases hkf : k = st.front
          · subst hkf
            rw [List.getElem?_append_left (by omega), hpq] at hq
            simp only [Option.some.injEq] at hq
            subst hq
            by_cases huq : u ∈ queued st
            · exact List.mem_append_left _ huq
            · exact List.mem_append_right _ ((mem_freshOf _ _ _).2 ⟨hu, huq⟩)
          · rw [List.getElem?_append_left (by omega)] at hq
            exact List.mem_append_left _ (hord.closed k q (by omega) hq u hu)
        · rw [List.length_append, hord.blocksLen, hfront2']
          rfl
        · rw [hq2, hord.blocksJoin]
          simp
        · intro k q hk hq
          rw [hfront2'] at hk
          rw [hq2] at hq
          rw [List.getElem?_append_left (by omega)] at hq
          by_cases hkf : k = st.front
          · subst hkf
            rw [hpq] at hq
            simp only [Option.some.injEq] at hq
            subst hq
            rw [List.getElem?_append_right (by rw [hord.blocksLen]),
              hord.blocksLen, Nat.sub_self, List.take_append_of_le_length (by rw [hord.blocksLen]),
              List.take_of_length_le (by rw [hord.blocksLen]), ← hord.blocksJoin]
            rfl
          · have hk' : k < st.front := by omega
            rw [List.getElem?_append_left (by rw [hord.blocksLen]; exact hk'),
              List.take_append_of_le_length (by rw [hord.blocksLen]; omega)]
            exact hord.blocksEq k q hk' hq
      exact ih st2 _ hinv2 hord2 st1 hrun
    · simp only [hlt, if_false, Option.some.injEq] at hrun
      subst hrun
      exact ⟨blocks, hinv, hord⟩

theorem walk_zero_eq (r : Nat → Nat → Prop) (a b : Nat) (h : Walk r a b 0) : b = a := by
  cases h
  rfl

/-- Order of the report on any graph with `numFoods <= 50` whose chains stay below
`numFoods`, in terms of the chains themselves. -/
theorem findSubstitutes_order (graph : FoodGraph) (v : Nat) (hN : graph.numFoods ≤ MAX_FOODS)
    (hv : v < graph.numFoods)
    (hclosed : ∀ a, a < graph.numFoods → ∀ b ∈ graph.adjList a, b < graph.numFoods) :
    ∃ (out : List Nat) (blocks : List (List Nat)),
      findSubstitutes graph (v : Int) = some out ∧
      (∀ x ∈ out, ∃ d, 1 ≤ d ∧ IsDist (fun a b => b ∈ graph.adjList a) v x d) ∧
      (∀ (i j x y dx dy : Nat), i ≤ j → out[i]? = some x → out[j]? = some y →
        IsDist (fun a b => b ∈ graph.adjList a) v x dx →
        IsDist (fun a b => b ∈ graph.adjList a) v y dy → dx ≤ dy) ∧
      out = blocks.flatten ∧ blocks.length = out.length + 1 ∧
      ∀ (k p : Nat), (v :: out)[k]? = some p →
        blocks[k]? = some (freshOf (graph.adjList p) (v :: (blocks.take k).flatten)) := by
  have hMQ : MAX_QUEUE = MAX_FOODS := rfl
  obtain ⟨st, hst, hinv, _⟩ := bfsLoop_spec graph graph.numFoods v hN hclosed (MAX_QUEUE + 1)
    (bfsStart v) (bfsStart_inv graph v hv)
    (by show graph.numFoods + 1 ≤ MAX_QUEUE + 1 + 0; omega)
    (fun k hk => by exact absurd hk (Nat.not_lt_zero k))
  obtain ⟨blocks, _, hord⟩ := bfsLoop_order graph graph.numFoods v hN hclosed (MAX_QUEUE + 1)
    (bfsStart v) [] (bfsStart_inv graph v hv) (bfsStart_ord graph.adjList v) st hst
  have hstop := bfsLoop_stops graph _ _ _ hst
  have hfr := hinv.front_le
  have hlen := queued_length st
  have hshape := hinv.shape
  have hfront : st.front = st.swaps.length + 1 := by
    rw [hshape] at hlen
    simp only [List.length_cons] at hlen
    omega
  refine ⟨st.swaps, blocks, ?_, ?_, ?_, ?_, ?_, ?_⟩
  · rw [findSubstitutes_eq_bfsLoop graph v hN hv, hst]; rfl
  · intro x hx
    have hxq : x ∈ queued st := by rw [hshape]; exact List.mem_cons_of_mem _ hx
    obtain ⟨n, hw⟩ := walk_of_reflTransGen _ _ _ (hinv.reach x hxq)
    obtain ⟨d, _, hd⟩ := exists_isDist_of_walk _ _ _ _ hw
    refine ⟨d, ?_, hd⟩
    by_contra hcon
    have hd0 : d = 0 := by omega
    subst hd0
    have hxv := walk_zero_eq _ _ _ hd.1
    subst hxv
    have hnd := hinv.nodup
    rw [hshape] at hnd
    exact (List.nodup_cons.1 hnd).1 hx
  · intro i j x y dx dy hij hx hy h1 h2
    apply hord.sorted (i + 1) (j + 1) x y dx dy (by omega) _ _ h1 h2
    · rw [hshape]; simpa using hx
    · rw [hshape]; simpa using hy
  · have := hord.blocksJoin
    rw [hshape] at this
    exact (List.cons.inj this).2
  · rw [hord.blocksLen, hfront]
  · intro k p hk
    have hkq : (queued st)[k]? = some p := by rw [hshape]; exact hk
    have hklt : k < st.front := by
      have := (List.getElem?_eq_some_iff.1 hk).1
      simp only [List.length_cons] at this
      omega
    exact hord.blocksEq k p hklt hkq

theorem walk_adjList_iff (g0 : FoodGraph) (ops : List GraphOp) (v : Nat)
    (hedges : ∀ a b, GraphOp.addEdge a b ∈ ops →
      a < (build g0 ops).numFoods ∧ b < (build g0 ops).numFoods)
    (hv : v < (build g0 ops).numFoods) (x n : Nat) :
    Walk (fun a b => b ∈ (build g0 ops).adjList a) v x n ↔ Walk (Edge ops) v x n := by
  have hN := build_numFoods_le g0 ops
  have hlt : ∀ a b, Edge ops a b → a < (build g0 ops).numFoods ∧ b < (build g0 ops).numFoods := by
    intro a b h
    rcases h with h | h
    · exact hedges a b h
    · exact (hedges b a h).symm
  constructor
  · intro hw
    have key : x < (build g0 ops).numFoods ∧ Walk (Edge ops) v x n := by
      induction hw with
      | zero => exact ⟨hv, Walk.zero⟩
      | step _ hstep ih =>
        have hedge := (build_adjList g0 ops _ (by omega) _).1 hstep
        exact ⟨(hlt _ _ hedge).2, Walk.step ih.2 hedge⟩
    exact key.2
  · intro hw
    induction hw with
    | zero => exact Walk.zero
    | step _ hstep ih =>
      exact Walk.step ih ((build_adjList g0 ops _ (by have := (hlt _ _ hstep).1; omega) _).2 hstep)

theorem isDist_adjList_iff (g0 : FoodGraph) (ops : List GraphOp) (v : Nat)
    (hedges : ∀ a b, GraphOp.addEdge a b ∈ ops →
      a < (build g0 ops).numFoods ∧ b < (build g0 ops).numFoods)
    (hv : v < (build g0 ops).numFoods) (x n : Nat) :
    IsDist (fun a b => b ∈ (build g0 ops).adjList a) v x n ↔ IsDist (Edge ops) v x n := by
  simp only [IsDist, walk_adjList_iff g0 ops v hedges hv]

/-- C25: on every graph built with valid edge endpoints and for every valid vertex `v`,
`findSubstitutes(v)` reports the vertices in a breadth-first order. Every reported vertex
has a shortest-path distance of at least one edge from `v`, and these distances never
decrease along the report. The report is the concatenation of one block per vertex taken
off the queue (first `v`, then the reported vertices in report order), and the block of a
vertex lists the vertices of its adjacency list that were not reported before, each once,
in the order of that adjacency list. -/
theorem findSubstitutes_bfs_order (g0 : FoodGraph) (ops : List GraphOp) (v : Nat)
    (hedges : ∀ a b, GraphOp.addEdge a b ∈ ops →
      a < (build g0 ops).numFoods ∧ b < (build g0 ops).numFoods)
    (hv : v < (build g0 ops).numFoods) :
    ∃ (out : List Nat) (blocks : List (List Nat)),
      findSubstitutes (build g0 ops) (v : Int) = some out ∧
      (∀ x ∈ out, ∃ d, 1 ≤ d ∧ IsDist (Edge ops) v x d) ∧
      (∀ (i j x y dx dy : Nat), i ≤ j → out[i]? = some x → out[j]? = some y →
        IsDist (Edge ops) v x dx → IsDist (Edge ops) v y dy → dx ≤ dy) ∧
      out = blocks.flatten ∧ blocks.length = out.length + 1 ∧
      ∀ (k p : Nat), (v :: out)[k]? = some p →
        blocks[k]? = some (freshOf ((build g0 ops).adjList p) (v :: (blocks.take k).flatten)) := by
  have hN := build_numFoods_le g0 ops
  have hlt : ∀ a b, Edge ops a b → a < (build g0 ops).numFoods ∧ b < (build g0 ops).numFoods := by
    intro a b h
    rcases h with h | h
    · exact hedges a b h
    · exact (hedges b a h).symm
  have hclosed : ∀ a, a < (build g0 ops).numFoods → ∀ b ∈ (build g0 ops).adjList a,
      b < (build g0 ops).numFoods := by
    intro a ha b hb
    exact (hlt a b ((build_adjList g0 ops a (by omega) b).1 hb)).2
  obtain ⟨out, blocks, h1, h2, h3, h4, h5, h6⟩ :=
    findSubstitutes_order (build g0 ops) v hN hv hclosed
  refine ⟨out, blocks, h1, ?_, ?_, h4, h5, h6⟩
  · intro x hx
    obtain ⟨d, hd1, hd⟩ := h2 x hx
    exact ⟨d, hd1, (isDist_adjList_iff g0 ops v hedges hv x d).1 hd⟩
  · intro i j x y dx dy hij hx hy hdx hdy
    exact h3 i j x y dx dy hij hx hy
      ((isDist_adjList_iff g0 ops v hedges hv x dx).2 hdx)
      ((isDist_adjList_iff g0 ops v hedges hv y dy).2 hdy)

/-- C25 on the paneer graph (paneer 0, tofu 1, mushroom 2, soya 3, dal 4, chole 5, rajma 6,
egg 7): the report from paneer is egg, soya, mushroom, tofu, dal, rajma, chole. -/
theorem findSubstitutes_bfs_order_paneer :
    findSubstitutes (build blankGraph paneerOps) 0 = some [7, 3, 2, 1, 4, 6, 5] ∧
    ∃ (out : List Nat) (blocks : List (List Nat)),
      findSubstitutes (build blankGraph paneerOps) ((0 : Nat) : Int) = some out ∧
      (∀ x ∈ out, ∃ d, 1 ≤ d ∧ IsDist (Edge paneerOps) 0 x d) ∧
      (∀ (i j x y dx dy : Nat), i ≤ j → out[i]? = some x → out[j]? = some y →
        IsDist (Edge paneerOps) 0 x dx → IsDist (Edge paneerOps) 0 y dy → dx ≤ dy) ∧
      out = blocks.flatten ∧ blocks.length = out.length + 1 ∧
      ∀ (k p : Nat), (0 :: out)[k]? = some p →
        blocks[k]? = some (freshOf ((build blankGraph paneerOps).adjList p)
          (0 :: (blocks.take k).flatten)) :=
  ⟨by decide,
   findSubstitutes_bfs_order blankGraph paneerOps 0
    (by
      have hn : (build blankGraph paneerOps).numFoods = 8 := by decide
      rw [hn]
      intro a b h
      simp only [paneerOps, List.mem_cons, GraphOp.addEdge.injEq, List.mem_singleton,
        reduceCtorEq, false_or, List.not_mem_nil, or_false] at h
      omega)
    (by decide)⟩

end Graph
end NutriPlan

namespace NutriPlan
namespace Stack

theorem peek_push (stack : CheatStack) (name icon : String) (calories : Int)
    (now : String) (hlo : -1 ≤ stack.top) (hhi : stack.top < MAX_STACK - 1) :
    peek (push stack name icon calories now)
      = ⟨name, icon, calories, now, consequenceText calories⟩ := by
  have hfull : isFull stack = false := by
    simp only [isFull, beq_eq_false_iff_ne, ne_eq]; omega
  have htop : (push stack name icon calories now).top = stack.top + 1 := by
    simp [push, hfull]
  have hne : isEmpty (push stack name icon calories now) = false := by
    simp only [isEmpty, htop, beq_eq_false_iff_ne, ne_eq]; omega
  simp only [peek, hne, Bool.false_eq_true, if_false, htop]
  simp [push, hfull]

/-- C20 fails: after `push(&stack, "Pizza", ..., 700)` the stored consequence is
"🔥 700 kcal = Goal delayed by ~1 day(s)"; it begins with the fire sign and a blank,
which the text "700 kcal = Goal delayed by ~1 day(s)" of the claim lacks. -/
theorem push_consequence_has_icon :
    (peek (push (initStack blankStack) "Pizza" "🍕" 700 "2024-03-01 20:15:00")).consequence
      = "🔥 700 kcal = Goal delayed by ~1 day(s)" ∧
    (peek (push (initStack blankStack) "Pizza" "🍕" 700 "2024-03-01 20:15:00")).consequence
      ≠ "700 kcal = Goal delayed by ~1 day(s)" := by
  decide

/-- C20 as amended: for every non-negative calories value `c` pushed onto a well-formed
cheat stack that is not full, the consequence stored in the new top element is the fire
sign and a blank, then `c` in decimal, " kcal = Goal delayed by ~", `floor(c/500)` in
decimal and " day(s)". -/
theorem push_consequence_text (stack : CheatStack) (name icon : String) (c : Int)
    (now : String) (hlo : -1 ≤ stack.top) (hhi : stack.top < MAX_STACK - 1) (hc : 0 ≤ c) :
    (peek (push stack name icon c now)).consequence
      = "🔥 " ++ toString c ++ " kcal = Goal delayed by ~" ++ toString (c / 500) ++ " day(s)" := by
  rw [peek_push stack name icon c now hlo hhi]
  simp only [consequenceText]
  rw [Int.tdiv_eq_ediv hc (by decide)]

/-- C20 as amended, at the first push of `main` (700 kcal, one day). -/
theorem push_consequence_text_pizza :
    (-1 ≤ (initStack blankStack).top ∧ (initStack blankStack).top < MAX_STACK - 1 ∧
      (0 : Int) ≤ 700) ∧
    (peek (push (initStack blankStack) "Pizza" "🍕" 700 "2024-03-01 20:15:00")).consequence
      = "🔥 " ++ toString (700 : Int) ++ " kcal = Goal delayed by ~" ++
          toString ((700 : Int) / 500) ++ " day(s)" :=
  ⟨⟨by decide, by decide, by decide⟩,
   push_consequence_text (initStack blankStack) "Pizza" "🍕" 700 "2024-03-01 20:15:00"
    (by decide) (by decide) (by decide)⟩

end Stack
end NutriPlan

namespace NutriPlan

/-- C16: an insert into a bounded engine at capacity fails and changes nothing. `addFood`
on a graph with 50 vertices returns -1 and leaves `numFoods`, the vertices and the
adjacency lists as they are; `insertMeal` on a queue with 100 meals leaves `size` and the
heap as they are; `push` on a cheat stack with 50 elements leaves `top` and the stored
elements as they are. -/
theorem insert_at_capacity_changes_nothing
    (graph : Graph.FoodGraph) (name hindiName : String) (calories : Int) (protein : ℚ)
    (dietType : String)
    (pq : PQ.PriorityQueue) (meal : PQ.Meal)
    (stack : Stack.CheatStack) (sin icon : String) (kcal : Int) (now : String)
    (hgraph : graph.numFoods = Graph.MAX_FOODS) (hqueue : pq.size = PQ.MAX_SIZE)
    (hstack : stack.top = Stack.MAX_STACK - 1) :
    Graph.addFood graph name hindiName calories protein dietType = (-1, graph) ∧
    PQ.insertMeal pq meal.name meal.hindiName meal.calories meal.protein meal.carbs meal.fats
      meal.cost meal.score = pq ∧
    Stack.push stack sin icon kcal now = stack := by
  refine ⟨?_, ?_, ?_⟩
  · simp [Graph.addFood, hgraph]
  · simp [PQ.insertMeal, hqueue]
  · simp [Stack.push, Stack.isFull, hstack]

/-- C16 at a full graph, a full queue and a full stack. -/
theorem insert_at_capacity_changes_nothing_full :
    (fullGraph.numFoods = Graph.MAX_FOODS ∧ fullQueue.size = PQ.MAX_SIZE ∧
      fullStack.top = Stack.MAX_STACK - 1) ∧
    (Graph.addFood fullGraph "Rajma" "राजमा" 380 16 "veg" = (-1, fullGraph) ∧
      PQ.insertMeal fullQueue PQ.tieB.name PQ.tieB.hindiName PQ.tieB.calories PQ.tieB.protein
        PQ.tieB.carbs PQ.tieB.fats PQ.tieB.cost PQ.tieB.score = fullQueue ∧
      Stack.push fullStack "Samosa" "🥟" 250 "2024-03-04 17:30:00" = fullStack) :=
  ⟨⟨by decide, by decide, by decide⟩,
   insert_at_capacity_changes_nothing fullGraph "Rajma" "राजमा" 380 16 "veg" fullQueue PQ.tieB
    fullStack "Samosa" "🥟" 250 "2024-03-04 17:30:00" (by decide) (by decide) (by decide)⟩

/-- C17: on an empty engine, removal and inspection return the all-zero record and leave
the engine as it is, hence empty. `pop` and `peek` on an empty cheat stack return
`{"", "", 0, "", ""}` and `isEmpty` stays true; `extractMax` and `peekMax` on an empty
priority queue return `{"", "", 0, 0, 0, 0, 0, 0}` and `size` stays 0. -/
theorem empty_engine_returns_zero_record (stack : Stack.CheatStack) (pq : PQ.PriorityQueue)
    (hstack : Stack.isEmpty stack = true) (hqueue : pq.size = 0) :
    (Stack.pop stack = (⟨"", "", 0, "", ""⟩, stack) ∧
      Stack.peek stack = ⟨"", "", 0, "", ""⟩ ∧
      Stack.isEmpty (Stack.pop stack).2 = true) ∧
    (PQ.extractMax pq = (⟨"", "", 0, 0, 0, 0, 0, 0⟩, pq) ∧
      PQ.peekMax pq = ⟨"", "", 0, 0, 0, 0, 0, 0⟩ ∧
      (PQ.extractMax pq).2.size = 0) := by
  refine ⟨⟨?_, ?_, ?_⟩, ?_, ?_, ?_⟩
  · simp [Stack.pop, hstack, Stack.emptyCheat]
  · simp [Stack.peek, hstack, Stack.emptyCheat]
  · simp [Stack.pop, hstack]
  · simp [PQ.extractMax, hqueue, PQ.emptyMeal]
  · simp [PQ.peekMax, hqueue, PQ.emptyMeal]
  · simp [PQ.extractMax, hqueue]

/-- C17 at a freshly initialised stack and queue. -/
theorem empty_engine_returns_zero_record_fresh :
    (Stack.isEmpty (Stack.initStack Stack.blankStack) = true ∧
      (PQ.initPQ PQ.blankQueue).size = 0) ∧
    ((Stack.pop (Stack.initStack Stack.blankStack)
        = (⟨"", "", 0, "", ""⟩, Stack.initStack Stack.blankStack) ∧
      Stack.peek (Stack.initStack Stack.blankStack) = ⟨"", "", 0, "", ""⟩ ∧
      Stack.isEmpty (Stack.pop (Stack.initStack Stack.blankStack)).2 = true) ∧
    (PQ.extractMax (PQ.initPQ PQ.blankQueue)
        = (⟨"", "", 0, 0, 0, 0, 0, 0⟩, PQ.initPQ PQ.blankQueue) ∧
      PQ.peekMax (PQ.initPQ PQ.blankQueue) = ⟨"", "", 0, 0, 0, 0, 0, 0⟩ ∧
      (PQ.extractMax (PQ.initPQ PQ.blankQueue)).2.size = 0)) :=
  ⟨⟨by decide, by decide⟩,
   empty_engine_returns_zero_record (Stack.initStack Stack.blankStack)
    (PQ.initPQ PQ.blankQueue) (by decide) (by decide)⟩

end NutriPlan

